import Mathlib

/-!
Verification of the codeops-mcp core subsystems: the TF-IDF search engine
(`src/store/search-engine.ts`) and the markdown section-merge engine
(`src/tools/analyze-project.ts`).  The TypeScript sources are shallowly
embedded below: strings are Lean `String`s (lists of characters), the
JavaScript `Map` is an insertion-ordered association list, JavaScript
numbers used for scores are real numbers, and the regular expressions used
by the tokenizer and parsers are translated into explicit recursive
scanners with the same leftmost-match semantics.
-/

set_option maxRecDepth 20000
set_option maxHeartbeats 4000000

/-! ## Basic string operations (JavaScript semantics) -/

/-- Whitespace characters recognized by JavaScript `\s` / `trim` (the subset
that can occur in the inputs of interest: space, tab, LF, CR, VT, FF, NBSP,
BOM). -/
def isJsWs (c : Char) : Bool :=
  c = ' ' || c = '\t' || c = '\n' || c = '\r' || c = Char.ofNat 11 ||
    c = Char.ofNat 12 || c = Char.ofNat 160 || c = Char.ofNat 65279

/-- Split a character list at every occurrence of `sep`, JavaScript
`String.prototype.split` semantics: `split "" = [""]`, separators at the ends
produce empty pieces. -/
def splitChar (sep : Char) : List Char → List (List Char)
  | [] => [[]]
  | c :: rest =>
    match splitChar sep rest with
    | [] => [[]]
    | p :: ps => if c = sep then [] :: p :: ps else (c :: p) :: ps

/-- Join character lists with a separator character (JavaScript
`Array.prototype.join`). -/
def joinChar (sep : Char) : List (List Char) → List Char
  | [] => []
  | [p] => p
  | p :: q :: ps => p ++ sep :: joinChar sep (q :: ps)

/-- Tail-recursive accumulator form of `splitChar`, used so that concrete
documents evaluate with shallow recursion; `splitCharAux_nil` identifies it
with `splitChar`. -/
def splitCharAux (sep : Char) : List Char → List Char → List (List Char)
  | acc, [] => [acc.reverse]
  | acc, c :: rest =>
    if c = sep then acc.reverse :: splitCharAux sep [] rest
    else splitCharAux sep (c :: acc) rest

theorem splitChar_ne_nil (sep : Char) (l : List Char) : splitChar sep l ≠ [] := by
  cases l with
  | nil => simp [splitChar]
  | cons c rest =>
    rw [splitChar]
    cases h : splitChar sep rest with
    | nil => simp
    | cons p ps =>
      dsimp only
      by_cases hc : c = sep
      · rw [if_pos hc]; simp
      · rw [if_neg hc]; simp

theorem splitCharAux_eq (sep : Char) :
    ∀ (l acc : List Char), splitCharAux sep acc l =
      match splitChar sep l with
      | [] => [acc.reverse]
      | p :: ps => (acc.reverse ++ p) :: ps := by
  intro l
  induction l with
  | nil => intro acc; simp [splitCharAux, splitChar]
  | cons c rest ih =>
    intro acc
    rw [splitCharAux, splitChar]
    cases h : splitChar sep rest with
    | nil => exact absurd h (splitChar_ne_nil sep rest)
    | cons p ps =>
      dsimp only
      by_cases hc : c = sep
      · rw [if_pos hc, if_pos hc, ih []]
        rw [h]
        simp
      · rw [if_neg hc, if_neg hc, ih (c :: acc)]
        rw [h]
        simp

theorem splitCharAux_nil (sep : Char) (l : List Char) :
    splitCharAux sep [] l = splitChar sep l := by
  rw [splitCharAux_eq]
  cases h : splitChar sep l with
  | nil => exact absurd h (splitChar_ne_nil sep l)
  | cons p ps => simp

/-- `content.split('\n')` on strings. -/
def jsLines (s : String) : List String :=
  (splitCharAux '\n' [] s.data).map String.mk

theorem jsLines_eq (s : String) : jsLines s = (splitChar '\n' s.data).map String.mk := by
  rw [jsLines, splitCharAux_nil]

/-- Tail-friendly Boolean equality on character lists (`List.beq`), used for
the merge engine's string comparisons so that concrete documents evaluate
with shallow recursion. -/
def listBeqChar : List Char → List Char → Bool
  | [], [] => true
  | a :: as, b :: bs => a == b && listBeqChar as bs
  | _, _ => false

/-- JavaScript `===` on strings. -/
def strEqB (s₁ s₂ : String) : Bool := listBeqChar s₁.data s₂.data

theorem listBeqChar_iff : ∀ l₁ l₂ : List Char, listBeqChar l₁ l₂ = true ↔ l₁ = l₂ := by
  intro l₁
  induction l₁ with
  | nil => intro l₂; cases l₂ <;> simp [listBeqChar]
  | cons a as ih =>
    intro l₂
    cases l₂ with
    | nil => simp [listBeqChar]
    | cons b bs =>
      rw [listBeqChar]
      simp [ih bs]

theorem strEqB_iff (s₁ s₂ : String) : strEqB s₁ s₂ = true ↔ s₁ = s₂ := by
  rw [strEqB, listBeqChar_iff]
  constructor
  · intro h
    cases s₁
    cases s₂
    simp only at h
    rw [h]
  · intro h
    rw [h]

/-- `lines.join('\n')` on strings. -/
def joinNl (ls : List String) : String :=
  String.mk (joinChar '\n' (ls.map String.data))

/-- `s.startsWith(p)`. -/
def strStartsWith (s p : String) : Bool :=
  List.isPrefixOf p.data s.data

/-- `s.trimStart()` on character lists. -/
def jsTrimStartL (l : List Char) : List Char := l.dropWhile isJsWs

/-- `s.trimEnd()` on character lists. -/
def jsTrimEndL (l : List Char) : List Char := (l.reverse.dropWhile isJsWs).reverse

/-- `s.trimStart()`. -/
def jsTrimStart (s : String) : String := String.mk (jsTrimStartL s.data)

/-- `s.trim()`. -/
def jsTrim (s : String) : String := String.mk (jsTrimEndL (jsTrimStartL s.data))

/-- `s.toLowerCase()` (ASCII; non-ASCII characters in the corpus are unaffected
by the transformations of interest). -/
def jsLower (s : String) : String := String.mk (s.data.map Char.toLower)

/-- `s.slice(n)` (ASCII strings, so UTF-16 units coincide with characters). -/
def strDrop (s : String) (n : Nat) : String := String.mk (s.data.drop n)

/-- `s.substring(0, n)`. -/
def strTake (s : String) (n : Nat) : String := String.mk (s.data.take n)

/-- Substring test on character lists (`String.prototype.includes`). -/
def listInfix (pat : List Char) : List Char → Bool
  | [] => pat.isEmpty
  | c :: rest => List.isPrefixOf pat (c :: rest) || listInfix pat rest

/-- `big.includes(small)`. -/
def containsSub (big small : String) : Bool := listInfix small.data big.data

/-! ## Tokenizer (`SearchEngine.tokenize`) -/

/-- The backtick character. -/
def backtick : Char := Char.ofNat 96

/-- Does the list begin with three consecutive backticks? -/
def isTripleStart : List Char → Bool
  | a :: b :: c :: _ => a = backtick && b = backtick && c = backtick
  | _ => false

/-- Split at the first occurrence of three consecutive backticks, returning
the text before the triple and the text after it. -/
def splitAtTriple : List Char → Option (List Char × List Char)
  | [] => none
  | c :: rest =>
    if isTripleStart (c :: rest) then some ([], rest.drop 2)
    else (splitAtTriple rest).map (fun p => (c :: p.1, p.2))

theorem dropWhile_length_le {α : Type _} (p : α → Bool) (l : List α) :
    (l.dropWhile p).length ≤ l.length := by
  induction l with
  | nil => simp
  | cons a l ih =>
    by_cases hpa : p a
    · rw [List.dropWhile_cons_of_pos hpa]
      simp only [List.length_cons]
      omega
    · rw [List.dropWhile_cons_of_neg hpa]

theorem splitAtTriple_some_eq {l p s : List Char} (h : splitAtTriple l = some (p, s)) :
    l = p ++ backtick :: backtick :: backtick :: s := by
  induction l generalizing p s with
  | nil => simp [splitAtTriple] at h
  | cons c rest ih =>
    rw [splitAtTriple] at h
    by_cases htr : isTripleStart (c :: rest) = true
    · rw [if_pos htr] at h
      simp only [Option.some.injEq, Prod.mk.injEq] at h
      obtain ⟨h1, h2⟩ := h
      cases rest with
      | nil => simp [isTripleStart] at htr
      | cons b rest1 =>
        cases rest1 with
        | nil => simp [isTripleStart] at htr
        | cons d rest2 =>
          simp only [isTripleStart, Bool.and_eq_true, decide_eq_true_eq] at htr
          obtain ⟨⟨hc, hb⟩, hd⟩ := htr
          subst hc
          subst hb
          subst hd
          simp only [List.drop_succ_cons, List.drop_zero] at h2
          rw [← h1, ← h2]
          simp
    · rw [if_neg htr] at h
      cases hsp : splitAtTriple rest with
      | none => rw [hsp] at h; simp at h
      | some pr =>
        obtain ⟨p', s'⟩ := pr
        rw [hsp] at h
        simp only [Option.map_some', Option.some.injEq, Prod.mk.injEq] at h
        obtain ⟨h1, h2⟩ := h
        rw [← h1, ← h2]
        have hrest := ih hsp
        rw [hrest]
        simp

theorem splitAtTriple_some_length {l p s : List Char} (h : splitAtTriple l = some (p, s)) :
    s.length + 3 ≤ l.length := by
  have := splitAtTriple_some_eq h
  subst this
  simp

/-- Fuelled worker for `stripFences`; the fuel only drives the recursion and
`stripFencesF_congr` shows any sufficient fuel computes the same result. -/
def stripFencesF : Nat → List Char → List Char
  | 0, l => l
  | fuel + 1, l =>
    match splitAtTriple l with
    | none => l
    | some (p, r) =>
      match splitAtTriple r with
      | none => l
      | some (_, r2) => p ++ ' ' :: stripFencesF fuel r2

/-- Remove every lazily matched pair of triple-backtick fences, scanning left
to right: `text.replace(/```[\s\S]*?```/g, ' ')`. -/
def stripFences (l : List Char) : List Char := stripFencesF l.length l

theorem stripFencesF_congr :
    ∀ (f1 f2 : Nat) (l : List Char), l.length ≤ f1 → l.length ≤ f2 →
      stripFencesF f1 l = stripFencesF f2 l := by
  intro f1
  induction f1 with
  | zero =>
    intro f2 l h1 _
    have hl : l = [] := List.eq_nil_of_length_eq_zero (Nat.le_zero.mp h1)
    subst hl
    cases f2 with
    | zero => rfl
    | succ f2' => simp [stripFencesF, splitAtTriple]
  | succ f1' ih =>
    intro f2 l h1 h2
    cases f2 with
    | zero =>
      have hl : l = [] := List.eq_nil_of_length_eq_zero (Nat.le_zero.mp h2)
      subst hl
      simp [stripFencesF, splitAtTriple]
    | succ f2' =>
      rw [stripFencesF, stripFencesF]
      cases hs1 : splitAtTriple l with
      | none => rfl
      | some pr =>
        obtain ⟨p, r⟩ := pr
        dsimp only
        cases hs2 : splitAtTriple r with
        | none => rfl
        | some pr2 =>
          obtain ⟨q, r2⟩ := pr2
          dsimp only
          have e1 := splitAtTriple_some_length hs1
          have e2 := splitAtTriple_some_length hs2
          rw [ih f2' r2 (by omega) (by omega)]

theorem stripFences_unfold (l : List Char) :
    stripFences l = match splitAtTriple l with
      | none => l
      | some (p, r) =>
        match splitAtTriple r with
        | none => l
        | some (_, r2) => p ++ ' ' :: stripFences r2 := by
  unfold stripFences
  cases hn : l.length with
  | zero =>
    have hl : l = [] := List.eq_nil_of_length_eq_zero hn
    subst hl
    simp [stripFencesF, splitAtTriple]
  | succ n =>
    rw [stripFencesF]
    cases hs1 : splitAtTriple l with
    | none => rfl
    | some pr =>
      obtain ⟨p, r⟩ := pr
      dsimp only
      cases hs2 : splitAtTriple r with
      | none => rfl
      | some pr2 =>
        obtain ⟨q, r2⟩ := pr2
        dsimp only
        have e1 := splitAtTriple_some_length hs1
        have e2 := splitAtTriple_some_length hs2
        rw [stripFencesF_congr n r2.length r2 (by omega) (by omega)]

/-- Split at the first occurrence of a given character. -/
def splitAtChar (t : Char) : List Char → Option (List Char × List Char)
  | [] => none
  | c :: rest =>
    if c = t then some ([], rest)
    else (splitAtChar t rest).map (fun p => (c :: p.1, p.2))

theorem splitAtChar_some_eq {t : Char} {l p s : List Char}
    (h : splitAtChar t l = some (p, s)) : l = p ++ t :: s := by
  induction l generalizing p s with
  | nil => simp [splitAtChar] at h
  | cons c rest ih =>
    rw [splitAtChar] at h
    by_cases hc : c = t
    · rw [if_pos hc] at h
      simp only [Option.some.injEq, Prod.mk.injEq] at h
      obtain ⟨h1, h2⟩ := h
      rw [← h1, ← h2, hc]
      simp
    · rw [if_neg hc] at h
      cases hsp : splitAtChar t rest with
      | none => rw [hsp] at h; simp at h
      | some pr =>
        obtain ⟨p', s'⟩ := pr
        rw [hsp] at h
        simp only [Option.map_some', Option.some.injEq, Prod.mk.injEq] at h
        obtain ⟨h1, h2⟩ := h
        rw [← h1, ← h2]
        have hrest := ih hsp
        rw [hrest]
        simp

theorem splitAtChar_some_length {t : Char} {l p s : List Char}
    (h : splitAtChar t l = some (p, s)) : s.length + 1 ≤ l.length := by
  have := splitAtChar_some_eq h
  subst this
  simp

/-- Fuelled worker for `stripInline`. -/
def stripInlineF : Nat → List Char → List Char
  | 0, l => l
  | fuel + 1, l =>
    match splitAtChar backtick l with
    | none => l
    | some (p, r) =>
      match splitAtChar backtick r with
      | none => l
      | some (m, r2) =>
        if m = [] then p ++ backtick :: stripInlineF fuel r
        else p ++ ' ' :: stripInlineF fuel r2

/-- Remove matched single-backtick inline code spans, scanning left to
right: `text.replace(/`[^`]+`/g, ' ')`.  A backtick immediately followed by
another backtick cannot open a span (the span body must be non-empty), so
scanning resumes at the second backtick. -/
def stripInline (l : List Char) : List Char := stripInlineF l.length l

theorem stripInlineF_congr :
    ∀ (f1 f2 : Nat) (l : List Char), l.length ≤ f1 → l.length ≤ f2 →
      stripInlineF f1 l = stripInlineF f2 l := by
  intro f1
  induction f1 with
  | zero =>
    intro f2 l h1 _
    have hl : l = [] := List.eq_nil_of_length_eq_zero (Nat.le_zero.mp h1)
    subst hl
    cases f2 with
    | zero => rfl
    | succ f2' => simp [stripInlineF, splitAtChar]
  | succ f1' ih =>
    intro f2 l h1 h2
    cases f2 with
    | zero =>
      have hl : l = [] := List.eq_nil_of_length_eq_zero (Nat.le_zero.mp h2)
      subst hl
      simp [stripInlineF, splitAtChar]
    | succ f2' =>
      rw [stripInlineF, stripInlineF]
      cases hs1 : splitAtChar backtick l with
      | none => rfl
      | some pr =>
        obtain ⟨p, r⟩ := pr
        dsimp only
        cases hs2 : splitAtChar backtick r with
        | none => rfl
        | some pr2 =>
          obtain ⟨m, r2⟩ := pr2
          dsimp only
          have e1 := splitAtChar_some_length hs1
          have e2 := splitAtChar_some_length hs2
          by_cases hm : m = []
          · rw [if_pos hm, if_pos hm, ih f2' r (by omega) (by omega)]
          · rw [if_neg hm, if_neg hm, ih f2' r2 (by omega) (by omega)]

theorem stripInline_unfold (l : List Char) :
    stripInline l = match splitAtChar backtick l with
      | none => l
      | some (p, r) =>
        match splitAtChar backtick r with
        | none => l
        | some (m, r2) =>
          if m = [] then p ++ backtick :: stripInline r
          else p ++ ' ' :: stripInline r2 := by
  unfold stripInline
  cases hn : l.length with
  | zero =>
    have hl : l = [] := List.eq_nil_of_length_eq_zero hn
    subst hl
    simp [stripInlineF, splitAtChar]
  | succ n =>
    rw [stripInlineF]
    cases hs1 : splitAtChar backtick l with
    | none => rfl
    | some pr =>
      obtain ⟨p, r⟩ := pr
      dsimp only
      cases hs2 : splitAtChar backtick r with
      | none => rfl
      | some pr2 =>
        obtain ⟨m, r2⟩ := pr2
        dsimp only
        have e1 := splitAtChar_some_length hs1
        have e2 := splitAtChar_some_length hs2
        by_cases hm : m = []
        · rw [if_pos hm, if_pos hm, stripInlineF_congr n r.length r (by omega) (by omega)]
        · rw [if_neg hm, if_neg hm, stripInlineF_congr n r2.length r2 (by omega) (by omega)]

/-- Attempt to match the tail of a markdown link `[text](url)` starting just
after an opening bracket: `[^\]]+` up to the first closing bracket, an
opening parenthesis, `[^)]+` up to the first closing parenthesis.  Returns
the link text and the text following the link. -/
def parseLinkTail (l : List Char) : Option (List Char × List Char) :=
  match splitAtChar ']' l with
  | none => none
  | some (txt, rest) =>
    if txt = [] then none
    else
      match rest with
      | [] => none
      | d :: r2 =>
        if d = '(' then
          match splitAtChar ')' r2 with
          | none => none
          | some (url, r3) => if url = [] then none else some (txt, r3)
        else none

theorem parseLinkTail_some_length {l txt s : List Char}
    (h : parseLinkTail l = some (txt, s)) : s.length < l.length := by
  unfold parseLinkTail at h
  cases h1 : splitAtChar ']' l with
  | none => rw [h1] at h; simp at h
  | some pr =>
    obtain ⟨txt', rest⟩ := pr
    rw [h1] at h
    dsimp only at h
    by_cases h0 : txt' = []
    · simp [h0] at h
    · rw [if_neg h0] at h
      cases rest with
      | nil => simp at h
      | cons d r2 =>
        dsimp only at h
        by_cases hd : d = '('
        · rw [if_pos hd] at h
          cases h2 : splitAtChar ')' r2 with
          | none => rw [h2] at h; simp at h
          | some pr2 =>
            obtain ⟨url, r3⟩ := pr2
            rw [h2] at h
            dsimp only at h
            by_cases hu : url = []
            · simp [hu] at h
            · rw [if_neg hu] at h
              simp only [Option.some.injEq, Prod.mk.injEq] at h
              obtain ⟨ht, hs⟩ := h
              have e2 := splitAtChar_some_length h2
              have elen := congrArg List.length (splitAtChar_some_eq h1)
              simp only [List.length_append, List.length_cons] at elen
              rw [← hs]
              omega
        · rw [if_neg hd] at h
          simp at h

/-- Fuelled worker for `stripLinks`. -/
def stripLinksF : Nat → List Char → List Char
  | 0, l => l
  | fuel + 1, l =>
    match splitAtChar '[' l with
    | none => l
    | some (p, r) =>
      match parseLinkTail r with
      | some (txt, rest) => p ++ txt ++ stripLinksF fuel rest
      | none => p ++ '[' :: stripLinksF fuel r

/-- Replace markdown links by their text:
`text.replace(/\[([^\]]+)\]\([^)]+\)/g, '$1')`. -/
def stripLinks (l : List Char) : List Char := stripLinksF l.length l

theorem stripLinksF_congr :
    ∀ (f1 f2 : Nat) (l : List Char), l.length ≤ f1 → l.length ≤ f2 →
      stripLinksF f1 l = stripLinksF f2 l := by
  intro f1
  induction f1 with
  | zero =>
    intro f2 l h1 _
    have hl : l = [] := List.eq_nil_of_length_eq_zero (Nat.le_zero.mp h1)
    subst hl
    cases f2 with
    | zero => rfl
    | succ f2' => simp [stripLinksF, splitAtChar]
  | succ f1' ih =>
    intro f2 l h1 h2
    cases f2 with
    | zero =>
      have hl : l = [] := List.eq_nil_of_length_eq_zero (Nat.le_zero.mp h2)
      subst hl
      simp [stripLinksF, splitAtChar]
    | succ f2' =>
      rw [stripLinksF, stripLinksF]
      cases hs1 : splitAtChar '[' l with
      | none => rfl
      | some pr =>
        obtain ⟨p, r⟩ := pr
        dsimp only
        have e1 := splitAtChar_some_length hs1
        cases hs2 : parseLinkTail r with
        | none => rw [ih f2' r (by omega) (by omega)]
        | some pr2 =>
          obtain ⟨txt, rest⟩ := pr2
          dsimp only
          have e2 := parseLinkTail_some_length hs2
          rw [ih f2' rest (by omega) (by omega)]

theorem stripLinks_unfold (l : List Char) :
    stripLinks l = match splitAtChar '[' l with
      | none => l
      | some (p, r) =>
        match parseLinkTail r with
        | some (txt, rest) => p ++ txt ++ stripLinks rest
        | none => p ++ '[' :: stripLinks r := by
  unfold stripLinks
  cases hn : l.length with
  | zero =>
    have hl : l = [] := List.eq_nil_of_length_eq_zero hn
    subst hl
    simp [stripLinksF, splitAtChar]
  | succ n =>
    rw [stripLinksF]
    cases hs1 : splitAtChar '[' l with
    | none => rfl
    | some pr =>
      obtain ⟨p, r⟩ := pr
      dsimp only
      have e1 := splitAtChar_some_length hs1
      cases hs2 : parseLinkTail r with
      | none => rw [stripLinksF_congr n r.length r (by omega) (by omega)]
      | some pr2 =>
        obtain ⟨txt, rest⟩ := pr2
        dsimp only
        have e2 := parseLinkTail_some_length hs2
        rw [stripLinksF_congr n rest.length rest (by omega) (by omega)]

/-- Markdown formatting characters treated as separators:
`text.replace(/[*_~#>|]/g, ' ')`. -/
def isMdPunct (c : Char) : Bool :=
  c = '*' || c = '_' || c = '~' || c = '#' || c = '>' || c = '|'

/-- Characters that survive `split(/[^a-z0-9-]+/)`. -/
def isTokenChar (c : Char) : Bool :=
  ('a' ≤ c && c ≤ 'z') || ('0' ≤ c && c ≤ '9') || c = '-'

/-- Fuelled worker for `splitRuns`. -/
def splitRunsF : Nat → List Char → List (List Char)
  | 0, l => [l.takeWhile isTokenChar]
  | fuel + 1, l =>
    match l.dropWhile isTokenChar with
    | [] => [l.takeWhile isTokenChar]
    | _ :: rs =>
      l.takeWhile isTokenChar :: splitRunsF fuel (rs.dropWhile (fun c => !isTokenChar c))

/-- `text.split(/[^a-z0-9-]+/)`: split on maximal runs of non-token
characters, keeping empty pieces at the two ends exactly as JavaScript
does. -/
def splitRuns (l : List Char) : List (List Char) := splitRunsF l.length l

theorem splitRunsF_congr :
    ∀ (f1 f2 : Nat) (l : List Char), l.length ≤ f1 → l.length ≤ f2 →
      splitRunsF f1 l = splitRunsF f2 l := by
  intro f1
  induction f1 with
  | zero =>
    intro f2 l h1 _
    have hl : l = [] := List.eq_nil_of_length_eq_zero (Nat.le_zero.mp h1)
    subst hl
    cases f2 with
    | zero => rfl
    | succ f2' => simp [splitRunsF]
  | succ f1' ih =>
    intro f2 l h1 h2
    cases f2 with
    | zero =>
      have hl : l = [] := List.eq_nil_of_length_eq_zero (Nat.le_zero.mp h2)
      subst hl
      simp [splitRunsF]
    | succ f2' =>
      rw [splitRunsF, splitRunsF]
      cases hs : l.dropWhile isTokenChar with
      | nil => rfl
      | cons c rs =>
        dsimp only
        have e0 : (l.dropWhile isTokenChar).length ≤ l.length := dropWhile_length_le _ _
        rw [hs] at e0
        simp only [List.length_cons] at e0
        have e1 : (rs.dropWhile (fun c => !isTokenChar c)).length ≤ rs.length :=
          dropWhile_length_le _ _
        rw [ih f2' (rs.dropWhile (fun c => !isTokenChar c)) (by omega) (by omega)]

theorem splitRuns_unfold (l : List Char) :
    splitRuns l = match l.dropWhile isTokenChar with
      | [] => [l.takeWhile isTokenChar]
      | _ :: rs =>
        l.takeWhile isTokenChar :: splitRuns (rs.dropWhile (fun c => !isTokenChar c)) := by
  unfold splitRuns
  cases hn : l.length with
  | zero =>
    have hl : l = [] := List.eq_nil_of_length_eq_zero hn
    subst hl
    simp [splitRunsF]
  | succ n =>
    rw [splitRunsF]
    cases hs : l.dropWhile isTokenChar with
    | nil => rfl
    | cons c rs =>
      dsimp only
      have e0 : (l.dropWhile isTokenChar).length ≤ l.length := dropWhile_length_le _ _
      rw [hs] at e0
      simp only [List.length_cons] at e0
      have e1 : (rs.dropWhile (fun c => !isTokenChar c)).length ≤ rs.length :=
        dropWhile_length_le _ _
      rw [splitRunsF_congr n (rs.dropWhile (fun c => !isTokenChar c)).length
        (rs.dropWhile (fun c => !isTokenChar c)) (by omega) (by omega)]

/-- The stop-word set (`STOP_WORDS` in `search-engine.ts`). -/
def STOP_WORDS : List String :=
  ["a", "an", "and", "are", "as", "at", "be", "but", "by", "for",
   "from", "has", "have", "he", "her", "his", "how", "i", "if", "in",
   "is", "it", "its", "just", "let", "may", "my", "no", "not", "of",
   "on", "or", "our", "own", "say", "she", "so", "than", "that", "the",
   "their", "them", "then", "there", "these", "they", "this", "to", "too",
   "us", "was", "we", "what", "when", "which", "who", "will", "with",
   "you", "your"]

/-- Tail of the `tokenize` pipeline after link removal: markdown punctuation
to separators, split, drop short tokens and stop words. -/
def tokenizeSplit (l : List Char) : List String :=
  ((splitRuns (l.map (fun c => if isMdPunct c then ' ' else c))).map String.mk).filter
    (fun t => decide (2 ≤ t.length) && !(STOP_WORDS.contains t))

/-- Tail of the `tokenize` pipeline after inline-code removal. -/
def tokenizeNoInline (l : List Char) : List String := tokenizeSplit (stripLinks l)

/-- Tail of the `tokenize` pipeline after fence removal. -/
def tokenizeNoFences (l : List Char) : List String := tokenizeNoInline (stripInline l)

/-- `SearchEngine.tokenize`: lowercase, strip code fences, inline code and
links, turn markdown punctuation into separators, split, and drop short
tokens and stop words. -/
def tokenize (text : String) : List String :=
  tokenizeNoFences (stripFences (text.data.map Char.toLower))

/-! ## Search engine data model (`search-engine.ts`, `types/index.ts`) -/

/-- A rule document (`RuleDocument` in `types/index.ts`); the category
enumeration is represented by its string value. -/
structure RuleDocument where
  id : String
  title : String
  content : String
  filePath : String
  filename : String
  description : String
  category : String
  crossReferences : List String
deriving DecidableEq, Repr

/-- One posting in the inverted index (`SearchIndexEntry`). -/
structure SearchIndexEntry where
  documentId : String
  termFrequency : Nat
deriving DecidableEq, Repr

/-- Pre-tokenized document (`IndexedDocument`). -/
structure IndexedDocument where
  entry : RuleDocument
  titleTokens : List String
  descriptionTokens : List String
  contentTokens : List String
deriving DecidableEq, Repr

/-- The mutable state of a `SearchEngine` object.  JavaScript `Map`s are
insertion-ordered, so they are modelled as association lists where `set` of a
fresh key appends. -/
structure SearchEngine where
  invertedIndex : List (String × List SearchIndexEntry)
  indexedDocs : List (String × IndexedDocument)
  totalDocuments : Nat
deriving DecidableEq, Repr

/-- `Map.prototype.get`. -/
def mapGet {α : Type _} (m : List (String × α)) (k : String) : Option α :=
  (m.find? (fun p => p.1 == k)).map (fun p => p.2)

/-- `Map.prototype.set`: overwrite in place if the key exists (keeping its
insertion position), otherwise append. -/
def mapSet {α : Type _} (m : List (String × α)) (k : String) (v : α) :
    List (String × α) :=
  if (m.find? (fun p => p.1 == k)).isSome then
    m.map (fun p => if p.1 == k then (k, v) else p)
  else m ++ [(k, v)]

/-- `SearchEngine.countTokens`: occurrence counts in first-occurrence order. -/
def countTokens (tokens : List String) : List (String × Nat) :=
  tokens.foldl (fun counts token => mapSet counts token ((mapGet counts token).getD 0 + 1)) []

/-- The body of `buildIndex`'s per-document loop: tokenize the three fields,
store the indexed document, and push one posting per distinct token.  Note
that postings are pushed onto whatever list is already present. -/
def indexDocument (s : SearchEngine) (entry : RuleDocument) : SearchEngine :=
  let titleTokens := tokenize entry.title
  let descriptionTokens := tokenize entry.description
  let contentTokens := tokenize entry.content
  let indexedDoc : IndexedDocument := ⟨entry, titleTokens, descriptionTokens, contentTokens⟩
  let docs := mapSet s.indexedDocs entry.id indexedDoc
  let allTokens := titleTokens ++ descriptionTokens ++ contentTokens
  let inv := (countTokens allTokens).foldl (fun inv tc =>
    let indexEntry : SearchIndexEntry := ⟨entry.id, tc.2⟩
    match mapGet inv tc.1 with
    | some existing => mapSet inv tc.1 (existing ++ [indexEntry])
    | none => inv ++ [(tc.1, [indexEntry])]) s.invertedIndex
  { s with indexedDocs := docs, invertedIndex := inv }

/-- `SearchEngine.buildIndex`: set the document count and index every
document.  The previous inverted index and document map are NOT cleared. -/
def buildIndex (s : SearchEngine) (documents : List RuleDocument) : SearchEngine :=
  documents.foldl indexDocument { s with totalDocuments := documents.length }

/-- `SearchEngine.clear`. -/
def clearEngine (_s : SearchEngine) : SearchEngine :=
  { invertedIndex := [], indexedDocs := [], totalDocuments := 0 }

/-- A freshly constructed engine. -/
def emptyEngine : SearchEngine :=
  { invertedIndex := [], indexedDocs := [], totalDocuments := 0 }

/-- `SearchEngine.vocabularySize`. -/
def vocabularySize (s : SearchEngine) : Nat := s.invertedIndex.length

/-! ## Excerpt extraction (`SearchEngine.extractExcerpt`) -/

def hashMark : String := "#"

def pipeMark : String := "|"

def fenceMark : String := "```"

def hruleMark : String := "---"

def quoteMark : String := ">"

def crossBullet : String := "- ❌"

def checkBullet : String := "- ✅"

def excerptDefault : String := "CodeOps rule document"

/-- Trim/truncate step shared by both excerpt scans. -/
def excerptTruncate (trimmed : String) (maxLength : Nat) : String :=
  if maxLength < trimmed.length then strTake trimmed maxLength ++ "..." else trimmed

/-- First scan of `extractExcerpt`: the first line containing a query token
(case-insensitive substring) that is not a structural markdown line. -/
def excerptScanMatch (queryTokens : List String) (maxLength : Nat) :
    List String → Option String
  | [] => none
  | line :: rest =>
    let lineLower := jsLower line
    if queryTokens.any (fun token => containsSub lineLower token) then
      let trimmed := jsTrim line
      if strStartsWith trimmed hashMark || strStartsWith trimmed pipeMark ||
          strStartsWith trimmed fenceMark || strStartsWith trimmed hruleMark ||
          strStartsWith trimmed quoteMark || strStartsWith trimmed crossBullet ||
          strStartsWith trimmed checkBullet || decide (trimmed.length < 20) then
        excerptScanMatch queryTokens maxLength rest
      else if decide (0 < trimmed.length) then some (excerptTruncate trimmed maxLength)
      else excerptScanMatch queryTokens maxLength rest
    else excerptScanMatch queryTokens maxLength rest

/-- Second scan of `extractExcerpt`: the first non-empty, non-structural line
regardless of query match. -/
def excerptScanFallback (maxLength : Nat) : List String → Option String
  | [] => none
  | line :: rest =>
    let trimmed := jsTrim line
    if decide (0 < trimmed.length) && !strStartsWith trimmed hashMark &&
        !strStartsWith trimmed quoteMark && !strStartsWith trimmed hruleMark &&
        decide (20 < trimmed.length) then
      some (excerptTruncate trimmed maxLength)
    else excerptScanFallback maxLength rest

/-- `SearchEngine.extractExcerpt`. -/
def extractExcerpt (content : String) (queryTokens : List String) (maxLength : Nat) :
    String :=
  let lines := jsLines content
  match excerptScanMatch queryTokens maxLength lines with
  | some e => e
  | none =>
    match excerptScanFallback maxLength lines with
    | some e => e
    | none => excerptDefault

/-! ## TF-IDF scoring and search (JavaScript numbers modelled as reals) -/

/-- `FIELD_WEIGHTS.title`. -/
noncomputable def titleWeight : ℝ := 10

/-- `FIELD_WEIGHTS.description`. -/
noncomputable def descriptionWeight : ℝ := 5

/-- `FIELD_WEIGHTS.content`. -/
noncomputable def contentWeight : ℝ := 1

/-- The counting loop of `calculateTf`: field tokens equal to the query token
or having it as a prefix. -/
def prefixMatchCount (token : String) (fieldTokens : List String) : Nat :=
  (fieldTokens.filter (fun fieldToken =>
    fieldToken == token || strStartsWith fieldToken token)).length

/-- `SearchEngine.calculateTf`. -/
noncomputable def calculateTf (token : String) (fieldTokens : List String) : ℝ :=
  if fieldTokens.length = 0 then 0
  else (prefixMatchCount token fieldTokens : ℝ) / (fieldTokens.length : ℝ)

/-- The prefix-fallback count of `calculateIdf`: postings of every vocabulary
term having the query token as a prefix, summed. -/
def idfMatchCount (s : SearchEngine) (token : String) : Nat :=
  (s.invertedIndex.filter (fun p => strStartsWith p.1 token)).foldl
    (fun acc p => acc + p.2.length) 0

/-- `SearchEngine.calculateIdf`. -/
noncomputable def calculateIdf (s : SearchEngine) (token : String) : ℝ :=
  match mapGet s.invertedIndex token with
  | none =>
    if idfMatchCount s token = 0 then 0
    else Real.log ((s.totalDocuments : ℝ) / (idfMatchCount s token : ℝ)) + 1
  | some docsWithToken =>
    if docsWithToken.length = 0 then
      (if idfMatchCount s token = 0 then 0
       else Real.log ((s.totalDocuments : ℝ) / (idfMatchCount s token : ℝ)) + 1)
    else Real.log ((s.totalDocuments : ℝ) / (docsWithToken.length : ℝ)) + 1

open Classical in
/-- `SearchEngine.scoreField`. -/
noncomputable def scoreField (s : SearchEngine) (queryToken : String)
    (fieldTokens : List String) (weight : ℝ) : ℝ :=
  let tf := calculateTf queryToken fieldTokens
  if tf = 0 then 0 else tf * calculateIdf s queryToken * weight

/-- `SearchEngine.scoreDocument`. -/
noncomputable def scoreDocument (s : SearchEngine) (indexedDoc : IndexedDocument)
    (queryTokens : List String) : ℝ :=
  queryTokens.foldl (fun totalScore queryToken =>
    totalScore + scoreField s queryToken indexedDoc.titleTokens titleWeight +
      scoreField s queryToken indexedDoc.descriptionTokens descriptionWeight +
      calculateTf queryToken indexedDoc.contentTokens * calculateIdf s queryToken *
        contentWeight) 0

/-- `SearchEngine.getMaxPossibleScore`. -/
noncomputable def getMaxPossibleScore (s : SearchEngine) (queryTokenCount : Nat) : ℝ :=
  (queryTokenCount : ℝ) * titleWeight * (Real.log (s.totalDocuments : ℝ) + 1)

/-- `Math.round` (round half toward positive infinity). -/
noncomputable def jsRound (x : ℝ) : ℤ := ⌊x + 1 / 2⌋

/-- A search result (`SearchResult` in `types/index.ts`). -/
structure SearchResult where
  document : RuleDocument
  relevance : ℤ
  excerpt : String

/-- Value backing the non-null assertion `this.indexedDocs.get(docId)!`. -/
def defaultRuleDocument : RuleDocument := ⟨"", "", "", "", "", "", "", []⟩

/-- Default indexed document for the same purpose. -/
def defaultIndexedDocument : IndexedDocument := ⟨defaultRuleDocument, [], [], []⟩

open Classical in
/-- `SearchEngine.search`. -/
noncomputable def search (s : SearchEngine) (query : String) (limit : Int)
    (categoryFilter : Option String) : List SearchResult :=
  let queryTokens := tokenize query
  if queryTokens = [] then []
  else
    let effectiveLimit := min (max 1 limit) 7
    let scores := ((s.indexedDocs.filter (fun p =>
        match categoryFilter with
        | none => true
        | some c => c == "" || p.2.entry.category == c)).map
      (fun p => (p.1, scoreDocument s p.2 queryTokens))).filter
        (fun q => decide (0 < q.2))
    let sortedResults := (scores.mergeSort (fun a b => decide (b.2 ≤ a.2))).take
      effectiveLimit.toNat
    let maxPossibleScore := getMaxPossibleScore s queryTokens.length
    sortedResults.map (fun q =>
      let indexedDoc := (mapGet s.indexedDocs q.1).getD defaultIndexedDocument
      { document := indexedDoc.entry,
        relevance := min (jsRound (q.2 / maxPossibleScore * 100)) 100,
        excerpt := extractExcerpt indexedDoc.entry.content queryTokens 200 })

/-! ## Merge engine data model (`types/index.ts`, `tools/analyze-project.ts`) -/

/-- A parsed section (`ParsedSection`). -/
structure ParsedSection where
  header : String
  level : Nat
  content : String
deriving DecidableEq, Repr

/-- A change-log entry (`MergeChange`); the source field `section` is renamed
`sectionName` because `section` is a Lean keyword. -/
structure MergeChange where
  sectionName : String
  description : String
deriving DecidableEq, Repr

/-- Section merge strategies (`SectionMergeStrategy`): `'auto-update'`,
`'preserve'`, `'static'`. -/
inductive SectionMergeStrategy where
  | autoUpdate
  | preserve
  | static
deriving DecidableEq, Repr

/-- `ProjectAnalysis`; the source field `structure` is renamed
`structureDirs` because `structure` is a Lean keyword. -/
structure ProjectAnalysis where
  name : String
  type : String
  languages : List String
  frameworks : List String
  packageManager : Option String
  testFramework : Option String
  buildCommand : Option String
  testCommand : Option String
  verifyCommand : Option String
  isMonorepo : Bool
  structureDirs : List String
  manifestFiles : List String
deriving DecidableEq, Repr

/-- JavaScript `x || dflt` for a nullable string: `null` and the empty string
are falsy. -/
def jsOrElse (o : Option String) (dflt : String) : String :=
  match o with
  | none => dflt
  | some s => if s = "" then dflt else s

/-- JavaScript `s || dflt` for a string. -/
def jsOrStr (s dflt : String) : String := if s = "" then dflt else s

/-- `xs.join(', ')`. -/
def joinCommaSpace : List String → String
  | [] => ""
  | [x] => x
  | x :: y :: rest => x ++ ", " ++ joinCommaSpace (y :: rest)

/-- `formatProjectMd`: render the complete fresh `project.md` from an
analysis, transcribed line for line from the source's `parts.push` calls. -/
def formatProjectMd (analysis : ProjectAnalysis) : String :=
  let parts : List String :=
    ["# Generated Project Configuration",
     "",
     "> **Auto-generated by `analyze_project`**",
     "> **Project:** " ++ analysis.name,
     "> **Type:** " ++ analysis.type,
     "",
     "Save this content to `.clinerules/project.md` in your project root,",
     "then review and adjust the values as needed.",
     "",
     "---",
     "",
     "## 🚨 MANDATORY: Load CodeOps Rules Before Any Work",
     "",
     "**Before ANY planning or implementation, the AI agent MUST load these rules",
     "using the codeops-mcp tools:**",
     "",
     "1. `get_rule(\"agents\")` — Load agent behavior rules **(REQUIRED FIRST)**",
     "2. `get_rule(\"code\")` — Load coding standards",
     "3. `get_rule(\"testing\")` — Load testing workflows",
     "4. `get_rule(\"git-commands\")` — Load git commit protocols",
     "",
     "These rules are **mandatory** and must be consulted before every task.",
     "**Do NOT skip this step. Do NOT proceed without reading these documents.**",
     "",
     "---",
     "",
     "## Project Overview",
     "",
     "- **Name:** " ++ analysis.name,
     "- **Description:** [TODO: Add project description]",
     "- **Type:** " ++ analysis.type,
     "",
     "## Toolchain",
     "",
     "- **Language(s):** " ++ jsOrStr (joinCommaSpace analysis.languages) "[Not detected]",
     "- **Framework(s):** " ++ jsOrStr (joinCommaSpace analysis.frameworks) "[None detected]",
     "- **Package Manager:** " ++ jsOrElse analysis.packageManager "[Not detected]",
     "- **Test Framework:** " ++ jsOrElse analysis.testFramework "[Not detected]"] ++
    (if analysis.isMonorepo then ["- **Structure:** Monorepo"] else []) ++
    ["",
     "**Manifest files found:** " ++ joinCommaSpace analysis.manifestFiles,
     "",
     "## Commands",
     "",
     "All commands assume execution from the project root. Prefix all shell commands with `clear &&`.",
     "",
     "### Build",
     "",
     "```bash",
     jsOrElse analysis.buildCommand "# [TODO: Add build command]",
     "```",
     "",
     "### Test",
     "",
     "```bash",
     "# Run all tests",
     jsOrElse analysis.testCommand "# [TODO: Add test command]",
     "```",
     "",
     "### Verify (before commit)",
     "",
     "```bash",
     "# Full verification — run this before any git commit",
     jsOrElse analysis.verifyCommand "# [TODO: Add verify command]",
     "```",
     "",
     "## Project Structure",
     "",
     "### Type: " ++ (if analysis.isMonorepo then "Monorepo" else "Single repository"),
     "",
     "### Directory Layout",
     "",
     "```"] ++
    (if analysis.structureDirs.length > 0 then
      analysis.structureDirs.map (fun dir => dir ++ "/")
    else ["[TODO: Add directory layout]"]) ++
    ["```",
     "",
     "## Coding Conventions",
     "",
     "### Naming",
     "",
     "- **Files:** [TODO: e.g., kebab-case, camelCase, snake_case]",
     "- **Components/Classes:** [TODO: e.g., PascalCase]",
     "- **Functions/Methods:** [TODO: e.g., camelCase, snake_case]",
     "- **Constants:** [TODO: e.g., UPPER_SNAKE_CASE]",
     "",
     "## Git & Commit Conventions",
     "",
     "### Commit Scope",
     "",
     "```"] ++
    (if analysis.isMonorepo then
      ["# Monorepo — use package name as scope:",
       "# feat(package-name): description"]
    else
      ["# Use module/feature as scope:",
       "# feat(module): description"]) ++
    ["```",
     "",
     "### Branch Strategy",
     "",
     "- **Main branch:** `main`",
     "- **Feature branches:** `feature/[name]`",
     "",
     "## Special Rules (Project-Specific)",
     "",
     "```",
     "[TODO: Add any project-specific rules]",
     "```",
     "",
     "## Cross-References",
     "",
     "The generic rule files that read this `project.md`:",
     "",
     "- **make_plan.md** — Uses verify command, file paths, commit scope",
     "- **code.md** — Uses language conventions, architecture rules",
     "- **testing.md** — Uses test commands, test locations, test framework",
     "- **git-commands.md** — Uses commit scope, verify command",
     "- **agents.md** — Uses shell commands, verify command",
     "- **plans.md** — Uses task file path patterns"]
  joinNl parts

/-! ## Section parser, classifier and merge (`tools/analyze-project.ts`) -/

/-- The line pattern `/^(#{2})\s+(.+)$/` of `parseProjectMdSections`: exactly
two hash marks, at least one whitespace character, then at least one more
character; `.` does not match line terminators. -/
def isLevel2Header (line : String) : Bool :=
  match line.data with
  | '#' :: '#' :: c :: rest =>
    let t := (c :: rest).dropWhile isJsWs
    isJsWs c && !t.isEmpty &&
      t.all (fun ch =>
        !(ch = '\n' || ch = '\r' || ch.val.toNat = 0x2028 || ch.val.toNat = 0x2029))
  | _ => false

/-- The accumulator loop of `parseProjectMdSections`. -/
def parseLoop : List String → String → Nat → List String → List ParsedSection
  | [], currentHeader, currentLevel, currentLines =>
    if currentHeader ≠ "" || currentLines ≠ [] then
      [⟨currentHeader, currentLevel, joinNl currentLines⟩]
    else []
  | line :: rest, currentHeader, currentLevel, currentLines =>
    if isLevel2Header line then
      (if currentHeader ≠ "" || currentLines ≠ [] then
        [⟨currentHeader, currentLevel, joinNl currentLines⟩]
      else []) ++ parseLoop rest line 2 []
    else parseLoop rest currentHeader currentLevel (currentLines ++ [line])

/-- `parseProjectMdSections`. -/
def parseProjectMdSections (content : String) : List ParsedSection :=
  parseLoop (jsLines content) "" 0 []

/-- `AUTO_UPDATE_SECTIONS`. -/
def AUTO_UPDATE_SECTIONS : List String :=
  ["## Project Overview", "## Toolchain", "## Commands", "## Project Structure"]

/-- `STATIC_SECTIONS`. -/
def STATIC_SECTIONS : List String :=
  ["## 🚨 MANDATORY: Load CodeOps Rules Before Any Work", "## Cross-References"]

/-- `classifySection`. -/
def classifySection (header : String) : SectionMergeStrategy :=
  let normalized := jsTrim header
  if normalized = "" then .preserve
  else if AUTO_UPDATE_SECTIONS.any (fun auto =>
    strStartsWith (jsLower normalized) (jsLower auto)) then .autoUpdate
  else if STATIC_SECTIONS.any (fun st =>
    strStartsWith (jsLower normalized) (jsLower st)) then .static
  else .preserve

/-- `generateFreshSection`: first fresh section whose normalized header
matches. -/
def generateFreshSection (header : String) (freshSections : List ParsedSection) :
    Option ParsedSection :=
  freshSections.find? (fun s => jsLower (jsTrim s.header) == jsLower (jsTrim header))

/-- The field marker for the overview description. -/
def descFieldMark : String := "- **Description:**"

/-- Lower-cased placeholder marker (`/^\[TODO/i`). -/
def todoMark : String := "[todo"

/-- Lower-cased overview heading marker. -/
def overviewMark : String := "## project overview"

/-- `extractFieldValue`. -/
def extractFieldValue : List String → String → Option String
  | [], _ => none
  | line :: rest, fieldPre =>
    let trimmed := jsTrimStart line
    if strStartsWith trimmed fieldPre then some (jsTrim (strDrop trimmed fieldPre.length))
    else extractFieldValue rest fieldPre

/-- `removeField`. -/
def removeField (lines : List String) (fieldPre : String) : List String :=
  lines.filter (fun line => !strStartsWith (jsTrimStart line) fieldPre)

/-- The description-replacement loop of `mergeProjectOverview` (replace the
first matching line, keep the rest). -/
def replaceFirstDesc : List String → String → List String
  | [], _ => []
  | line :: rest, userDescription =>
    if strStartsWith (jsTrimStart line) descFieldMark then
      (descFieldMark ++ " " ++ userDescription) :: rest
    else line :: replaceFirstDesc rest userDescription

/-- Emoji range removed by `extractSectionName`. -/
def isEmojiChar (c : Char) : Bool :=
  0x1F300 ≤ c.val.toNat && c.val.toNat ≤ 0x1F9FF

/-- `header.replace(/^#+\s*/, '')`. -/
def stripHeaderMarks (l : List Char) : List Char :=
  match l with
  | '#' :: _ => (l.dropWhile (fun c => c = '#')).dropWhile isJsWs
  | _ => l

/-- `extractSectionName`. -/
def extractSectionName (header : String) : String :=
  jsTrim (String.mk ((stripHeaderMarks header.data).filter (fun c => !isEmojiChar c)))

/-- `normalizeHeader`. -/
def normalizeHeader (header : String) : String := jsLower (jsTrim header)

/-- `mergeProjectOverview`.  The mutated `changes` array is threaded
explicitly; `new Date()` does not occur here. -/
def mergeProjectOverview (existing fresh : ParsedSection) (changes : List MergeChange) :
    String × List MergeChange :=
  let existingLines := jsLines existing.content
  let freshLines := jsLines fresh.content
  let userDescription := extractFieldValue existingLines descFieldMark
  let isTodo : Bool := match userDescription with
    | none => true
    | some d => d = "" || strStartsWith (jsLower d) todoMark
  let resultLines := match userDescription with
    | some d => if !isTodo then replaceFirstDesc freshLines d else freshLines
    | none => freshLines
  let mergedFull := fresh.header ++ "\n" ++ joinNl resultLines
  let existingWithoutDesc := jsTrim (joinNl (removeField existingLines descFieldMark))
  let freshWithoutDesc := jsTrim (joinNl (removeField freshLines descFieldMark))
  if !strEqB existingWithoutDesc freshWithoutDesc then
    (mergedFull, changes ++ [⟨"Project Overview", "Updated name/type from fresh scan"⟩])
  else (mergedFull, changes)

/-- Change description for refreshed auto-update sections. -/
def autoUpdateDesc : String := "Updated with fresh scan data"

/-- `mergeAutoUpdateSection`. -/
def mergeAutoUpdateSection (existing fresh : ParsedSection) (changes : List MergeChange) :
    String × List MergeChange :=
  let existingFull := existing.header ++ "\n" ++ existing.content
  let freshFull := fresh.header ++ "\n" ++ fresh.content
  if strEqB (jsTrim existingFull) (jsTrim freshFull) then (existingFull, changes)
  else if strStartsWith (jsLower (jsTrim existing.header)) overviewMark then
    mergeProjectOverview existing fresh changes
  else
    (freshFull, changes ++ [⟨extractSectionName existing.header, autoUpdateDesc⟩])

/-- The existing-section walk of `mergeProjectMd`, producing the merged parts,
the accumulated change records, and the consumed fresh headers. -/
def mergeWalk (freshSections : List ParsedSection) :
    List ParsedSection → List MergeChange → List String →
      List String × List MergeChange × List String
  | [], changes, consumed => ([], changes, consumed)
  | existing :: rest, changes, consumed =>
    let step : String × List MergeChange × List String :=
      match classifySection existing.header with
      | .autoUpdate =>
        match generateFreshSection existing.header freshSections with
        | some fresh =>
          let m := mergeAutoUpdateSection existing fresh changes
          (m.1, m.2, consumed ++ [normalizeHeader fresh.header])
        | none => (existing.header ++ "\n" ++ existing.content, changes, consumed)
      | .static =>
        match generateFreshSection existing.header freshSections with
        | some fresh =>
          (fresh.header ++ "\n" ++ fresh.content, changes,
            consumed ++ [normalizeHeader fresh.header])
        | none => (existing.header ++ "\n" ++ existing.content, changes, consumed)
      | .preserve =>
        let consumed2 := match generateFreshSection existing.header freshSections with
          | some fresh => consumed ++ [normalizeHeader fresh.header]
          | none => consumed
        if existing.header = "" then (existing.content, changes, consumed2)
        else (existing.header ++ "\n" ++ existing.content, changes, consumed2)
    let w := mergeWalk freshSections rest step.2.1 step.2.2
    (step.1 :: w.1, w.2.1, w.2.2)

/-- Change description for appended template sections. -/
def newSectionDesc : String := "New section added from template"

/-- The trailing loop of `mergeProjectMd`: append fresh sections whose headers
were never consumed. -/
def appendNewSections (consumed : List String) (changes : List MergeChange) :
    List ParsedSection → List String × List MergeChange
  | [] => ([], changes)
  | fresh :: rest =>
    if fresh.header = "" then appendNewSections consumed changes rest
    else if consumed.contains (normalizeHeader fresh.header) then
      appendNewSections consumed changes rest
    else
      let w := appendNewSections consumed
        (changes ++ [⟨extractSectionName fresh.header, newSectionDesc⟩]) rest
      ((fresh.header ++ "\n" ++ fresh.content) :: w.1, w.2)

/-- First line of the empty change log. -/
def noChangesLine : String := "> **✅ Re-analyzed by `analyze_project`** (no changes detected)"

/-- First line of the non-empty change log. -/
def updatedLine : String := "> **🔄 Updated by `analyze_project`** (incremental update)"

/-- Date line marker of the change log. -/
def scannedMark : String := "> **Scanned:** "

/-- Header of the change list. -/
def changesDetectedLine : String := "> **Changes detected:**"

/-- `formatChangeLog`; the `new Date().toISOString().split('T')[0]` value is
the explicit `today` argument. -/
def formatChangeLog (changes : List MergeChange) (today : String) : String :=
  if changes.length = 0 then joinNl [noChangesLine, scannedMark ++ today]
  else joinNl ([updatedLine, scannedMark ++ today, changesDetectedLine] ++
    changes.map (fun change => "> - " ++ change.sectionName ++ ": " ++ change.description))

/-- The title marker searched for by the change-log insertion. -/
def hashSpace : String := "# "

/-- The change-log insertion step of `mergeProjectMd`: splice after the first
line starting with `"# "`, or prepend. -/
def insertChangeLog (body changeLog : String) : String :=
  let lines := jsLines body
  match lines.findIdx? (fun l => strStartsWith l hashSpace) with
  | some i => joinNl (lines.take (i + 1) ++ ["", changeLog] ++ lines.drop (i + 1))
  | none => changeLog ++ "\n" ++ body

/-- Walk plus append loop of `mergeProjectMd`: the merged parts and the final
change records. -/
def mergeCore (existingSections : List ParsedSection) (analysis : ProjectAnalysis) :
    List String × List MergeChange :=
  let freshSections := parseProjectMdSections (formatProjectMd analysis)
  let w := mergeWalk freshSections existingSections [] []
  let ap := appendNewSections w.2.2 w.2.1 freshSections
  (w.1 ++ ap.1, ap.2)

/-- `mergedParts.join('\n')`. -/
def mergeBody (existingSections : List ParsedSection) (analysis : ProjectAnalysis) :
    String :=
  joinNl (mergeCore existingSections analysis).1

/-- The change records collected by a merge. -/
def mergeChanges (existingSections : List ParsedSection) (analysis : ProjectAnalysis) :
    List MergeChange :=
  (mergeCore existingSections analysis).2

/-- `mergeProjectMd`, with the generation date as an explicit argument. -/
def mergeProjectMd (existingSections : List ParsedSection) (analysis : ProjectAnalysis)
    (today : String) : String :=
  insertChangeLog (mergeBody existingSections analysis)
    (formatChangeLog (mergeChanges existingSections analysis) today)

/-! ## Concrete inputs used by witnesses and counterexamples -/

/-- A small one-document corpus for exercising `buildIndex`. -/
def docC1 : RuleDocument :=
  ⟨"doc-1", "hello world", "unrelated informative contents", "", "", "", "standards", []⟩

/-- The engine after a single build from `[docC1]`. -/
def engineOnce : SearchEngine := buildIndex emptyEngine [docC1]

/-- The engine after building twice in succession from the same corpus. -/
def engineTwice : SearchEngine := buildIndex engineOnce [docC1]

/-- A document whose content holds four distinct terms sharing the prefix
`aa`, none of them equal to `aa`. -/
def docC10 : RuleDocument :=
  ⟨"doc-2", "zz", "aaa aab aac aad", "", "", "", "standards", []⟩

/-- The engine indexing `[docC10]` alone. -/
def engineC10 : SearchEngine := buildIndex emptyEngine [docC10]

/-- A typical project analysis (a TypeScript npm web app). -/
def analysisA : ProjectAnalysis :=
  ⟨"my-app", "web-app", ["TypeScript"], [], some "npm", some "vitest",
   some "clear && npm run build", some "clear && npm test",
   some "clear && npm run build && npm test", false, ["src"], ["package.json"]⟩

/-- The same analysis with a build command that happens to be a level-2
heading line; `formatProjectMd` prints it verbatim inside the Build code
fence, where the section parser (which is unaware of code fences) reads it as
a second `## Toolchain` heading. -/
def analysisInj : ProjectAnalysis := { analysisA with buildCommand := some "## Toolchain" }

/-! ## Claim C10 -/

/-- C10: there is an index state and a query token on which `calculateIdf`
returns a strictly negative value: the token `aa` has no exact posting in
`engineC10`, the prefix fallback aggregates the four postings of `aaa`,
`aab`, `aac`, `aad` against a single indexed document, and
`ln(1/4) + 1 < 0`; consequently `scoreField` gives that term a strictly
negative contribution on a field it fully matches. -/
theorem c10_calculateIdf_negative :
    calculateIdf engineC10 "aa" < 0 ∧
      scoreField engineC10 "aa" (tokenize docC10.content) contentWeight < 0 := by
  have hmap : mapGet engineC10.invertedIndex "aa" = none := by decide
  have hcount : idfMatchCount engineC10 "aa" = 4 := by decide
  have htot : engineC10.totalDocuments = 1 := by decide
  have hidf : calculateIdf engineC10 "aa" < 0 := by
    rw [calculateIdf, hmap]
    dsimp only
    rw [hcount, htot, if_neg (by norm_num)]
    have h4 : (1 : ℝ) < Real.log 4 := by
      rw [Real.lt_log_iff_exp_lt (by norm_num : (0 : ℝ) < 4)]
      calc Real.exp 1 < 2.7182818286 := Real.exp_one_lt_d9
        _ < 4 := by norm_num
    have : Real.log ((1 : ℕ) / ((4 : ℕ) : ℝ)) = -Real.log 4 := by
      norm_num
      rw [one_div, Real.log_inv]
    rw [this]
    linarith
  refine ⟨hidf, ?_⟩
  have htoks : tokenize docC10.content = ["aaa", "aab", "aac", "aad"] := by decide
  have htf : calculateTf "aa" (tokenize docC10.content) = 1 := by
    rw [calculateTf]
    have hc : prefixMatchCount "aa" (tokenize docC10.content) = 4 := by decide
    rw [htoks]
    rw [htoks] at hc
    simp only [List.length_cons, List.length_nil] at hc ⊢
    rw [if_neg (by norm_num), hc]
    norm_num
  rw [scoreField]
  simp only [htf, contentWeight]
  rw [if_neg one_ne_zero]
  nlinarith [hidf]

/-! ## Claim C1 -/

/-- C1 counterexample: building the index twice in succession from the same
one-document corpus does not reproduce the single-build state — every posting
list is appended to again (`hello` maps to two postings for the same
document), and the duplicated postings change `calculateIdf`, so the claimed
state identity (and with it byte-identical ranked results) fails.
`indexedDocs` and `totalDocuments` are unchanged. -/
theorem c1_counterexample :
    engineTwice ≠ engineOnce ∧
      mapGet engineOnce.invertedIndex "hello" = some [⟨"doc-1", 1⟩] ∧
      mapGet engineTwice.invertedIndex "hello" = some [⟨"doc-1", 1⟩, ⟨"doc-1", 1⟩] ∧
      engineTwice.indexedDocs = engineOnce.indexedDocs ∧
      engineTwice.totalDocuments = engineOnce.totalDocuments ∧
      calculateIdf engineTwice "hello" ≠ calculateIdf engineOnce "hello" := by
  refine ⟨by decide, by decide, by decide, by decide, by decide, ?_⟩
  have h1 : mapGet engineOnce.invertedIndex "hello" = some [⟨"doc-1", 1⟩] := by decide
  have h2 : mapGet engineTwice.invertedIndex "hello" =
      some [⟨"doc-1", 1⟩, ⟨"doc-1", 1⟩] := by decide
  have ht1 : engineOnce.totalDocuments = 1 := by decide
  have ht2 : engineTwice.totalDocuments = 1 := by decide
  rw [calculateIdf, calculateIdf, h1, h2]
  dsimp only
  rw [ht1, ht2]
  norm_num

/-- C1 amended: `buildIndex` is idempotent only across the documented reload
path — after a `clear()`, building from a corpus yields one canonical state
regardless of prior history, and identical queries against those states
return identical results.  (Without the intervening clear the second build
duplicates every posting, as the counterexample shows.) -/
theorem c1_amended_clear_then_build (s₁ s₂ : SearchEngine) (docs : List RuleDocument)
    (q : String) (lim : Int) (filt : Option String) :
    buildIndex (clearEngine s₁) docs = buildIndex (clearEngine s₂) docs ∧
      search (buildIndex (clearEngine s₁) docs) q lim filt =
        search (buildIndex (clearEngine s₂) docs) q lim filt :=
  ⟨rfl, rfl⟩

/-! ## Claim C7 -/

/-- C7 counterexample: `mergeProjectMd` reads the wall clock — the generation
date is stamped into the change-log block — so two calls with identical
existing sections and identical analysis made on different days produce
different output text.  The merge engine is therefore not a pure function of
(sections, analysis) alone. -/
theorem c7_counterexample :
    mergeProjectMd [] analysisA "2026-01-01" ≠ mergeProjectMd [] analysisA "2026-01-02" := by
  intro h
  have hb : strEqB (mergeProjectMd [] analysisA "2026-01-01")
      (mergeProjectMd [] analysisA "2026-01-02") = false := by decide
  rw [h] at hb
  have htrue : strEqB (mergeProjectMd [] analysisA "2026-01-02")
      (mergeProjectMd [] analysisA "2026-01-02") = true :=
    (strEqB_iff _ _).mpr rfl
  rw [htrue] at hb
  exact Bool.noConfusion hb

/-- C7 amended: the merge engine is a pure function of (existing sections,
analysis, generation date): two calls with identical values of all three
inputs produce identical output text, and the date influences the output only
through the formatted change-log block — the merged body and the change
records are computed from the sections and the analysis alone. -/
theorem c7_amended_deterministic (e₁ e₂ : List ParsedSection) (a₁ a₂ : ProjectAnalysis)
    (d₁ d₂ : String) (he : e₁ = e₂) (ha : a₁ = a₂) (hd : d₁ = d₂) :
    mergeProjectMd e₁ a₁ d₁ = mergeProjectMd e₂ a₂ d₂ ∧
      mergeProjectMd e₁ a₁ d₁ =
        insertChangeLog (mergeBody e₁ a₁) (formatChangeLog (mergeChanges e₁ a₁) d₁) := by
  subst he
  subst ha
  subst hd
  exact ⟨rfl, rfl⟩

/-- Witness for the amended C7 theorem at concrete inputs. -/
theorem c7_amended_witness :
    mergeProjectMd [] analysisA "2026-10-11" = mergeProjectMd [] analysisA "2026-10-11" ∧
      mergeProjectMd [] analysisA "2026-10-11" =
        insertChangeLog (mergeBody [] analysisA)
          (formatChangeLog (mergeChanges [] analysisA) "2026-10-11") :=
  c7_amended_deterministic [] [] analysisA analysisA "2026-10-11" "2026-10-11" rfl rfl rfl

/-! ## Claim C6 -/

theorem findIdx?_append_first {α : Type _} {p : α → Bool} :
    ∀ (A : List α) (x : α) (B : List α) (i : Nat),
      (A.all (fun a => !p a)) = true → p x = true →
      (A ++ x :: B).findIdx? p i = some (i + A.length) := by
  intro A
  induction A with
  | nil =>
    intro x B i _ hx
    simp [List.findIdx?_cons, hx]
  | cons a A ih =>
    intro x B i hall hx
    simp only [List.all_cons, Bool.and_eq_true, Bool.not_eq_true'] at hall
    obtain ⟨ha, hall⟩ := hall
    rw [List.cons_append, List.findIdx?_cons, ha]
    simp only [Bool.false_eq_true, if_false]
    rw [ih x B (i + 1) (by simp [List.all_eq_true] at hall ⊢; exact hall) hx]
    simp only [List.length_cons]
    congr 1
    omega

theorem findIdx?_none_of_all {α : Type _} {p : α → Bool} :
    ∀ (l : List α) (i : Nat), (l.all (fun a => !p a)) = true → l.findIdx? p i = none := by
  intro l
  induction l with
  | nil => intro i _; simp
  | cons a l ih =>
    intro i hall
    simp only [List.all_cons, Bool.and_eq_true, Bool.not_eq_true'] at hall
    obtain ⟨ha, hall⟩ := hall
    rw [List.findIdx?_cons, ha]
    simp only [Bool.false_eq_true, if_false]
    exact ih (i + 1) (by simp [List.all_eq_true] at hall ⊢; exact hall)

theorem take_append_cons_self {α : Type _} :
    ∀ (A : List α) (x : α) (B : List α), (A ++ x :: B).take (A.length + 1) = A ++ [x] := by
  intro A
  induction A with
  | nil => intro x B; simp
  | cons a A ih => intro x B; simp [ih x B]

theorem drop_append_cons_self {α : Type _} :
    ∀ (A : List α) (x : α) (B : List α), (A ++ x :: B).drop (A.length + 1) = B := by
  intro A
  induction A with
  | nil => intro x B; simp
  | cons a A ih => intro x B; simp [ih x B]

/-- C6: `mergeProjectMd` builds the merged body and then splices the
change-log block in: when the body's lines decompose as `pre ++ title :: post`
with no line of `pre` starting with `"# "` and `title` starting with `"# "`
(i.e. `title` is the first top-level title line), the output is exactly
`pre ++ title :: "" :: changeLog :: post` rejoined — the block sits
immediately after the title; and when no line of the body starts with
`"# "`, the change-log block is prepended before all content. -/
theorem c6_changeLog_insertion :
    (∀ (ex : List ParsedSection) (a : ProjectAnalysis) (today : String),
      mergeProjectMd ex a today =
        insertChangeLog (mergeBody ex a) (formatChangeLog (mergeChanges ex a) today)) ∧
    (∀ (body changeLog : String) (pre : List String) (title : String) (post : List String),
      jsLines body = pre ++ title :: post →
      (pre.all (fun l => !strStartsWith l hashSpace)) = true →
      strStartsWith title hashSpace = true →
      insertChangeLog body changeLog = joinNl (pre ++ title :: "" :: changeLog :: post)) ∧
    (∀ (body changeLog : String),
      ((jsLines body).all (fun l => !strStartsWith l hashSpace)) = true →
      insertChangeLog body changeLog = changeLog ++ "\n" ++ body) := by
  refine ⟨fun ex a today => rfl, ?_, ?_⟩
  · intro body changeLog pre title post hlines hpre htitle
    rw [insertChangeLog]
    rw [hlines, findIdx?_append_first pre title post 0 hpre htitle]
    dsimp only
    rw [Nat.zero_add, take_append_cons_self, drop_append_cons_self]
    simp
  · intro body changeLog hall
    rw [insertChangeLog, findIdx?_none_of_all _ 0 hall]

/-- Witness for C6 at concrete inputs: a body whose second line is the first
title line, and a body with no title line. -/
theorem c6_witness :
    mergeProjectMd [] analysisA "2026-10-11" =
      insertChangeLog (mergeBody [] analysisA)
        (formatChangeLog (mergeChanges [] analysisA) "2026-10-11") ∧
    insertChangeLog "intro\n# Title\nbody line" "LOG" =
      joinNl ["intro", "# Title", "", "LOG", "body line"] ∧
    insertChangeLog "plain\ntext" "LOG" = "LOG" ++ "\n" ++ "plain\ntext" := by
  refine ⟨c6_changeLog_insertion.1 [] analysisA "2026-10-11", ?_, ?_⟩
  · exact c6_changeLog_insertion.2.1 "intro\n# Title\nbody line" "LOG" ["intro"] "# Title"
      ["body line"] (by decide) (by decide) (by decide)
  · exact c6_changeLog_insertion.2.2 "plain\ntext" "LOG" (by decide)

/-! ## Claim C9 -/

/-- The shape guaranteed for every excerpt: non-empty, and either a trimmed
content line of at most 200 characters, or a trimmed content line truncated
to 200 characters with an ellipsis appended, or the fixed placeholder. -/
def ExcerptShape (content e : String) : Prop :=
  0 < e.length ∧
    ((∃ l ∈ jsLines content, e = jsTrim l ∧ (jsTrim l).length ≤ 200) ∨
     (∃ l ∈ jsLines content, e = strTake (jsTrim l) 200 ++ "..." ∧ 200 < (jsTrim l).length) ∨
     e = excerptDefault)

theorem excerptTruncate_shape (trimmed : String) (maxLength : Nat) :
    (excerptTruncate trimmed maxLength = trimmed ∧ trimmed.length ≤ maxLength) ∨
      (excerptTruncate trimmed maxLength = strTake trimmed maxLength ++ "..." ∧
        maxLength < trimmed.length) := by
  rw [excerptTruncate]
  by_cases h : maxLength < trimmed.length
  · right
    rw [if_pos h]
    exact ⟨rfl, h⟩
  · left
    rw [if_neg h]
    exact ⟨rfl, by omega⟩

theorem excerptScanMatch_some {queryTokens : List String} {maxLength : Nat} :
    ∀ {lines : List String} {e : String},
      excerptScanMatch queryTokens maxLength lines = some e →
      ∃ l ∈ lines, 0 < (jsTrim l).length ∧ e = excerptTruncate (jsTrim l) maxLength := by
  intro lines
  induction lines with
  | nil => intro e h; simp [excerptScanMatch] at h
  | cons line rest ih =>
    intro e h
    rw [excerptScanMatch] at h
    by_cases h1 : (queryTokens.any (fun token => containsSub (jsLower line) token)) = true
    · rw [if_pos h1] at h
      by_cases h2 : (strStartsWith (jsTrim line) hashMark || strStartsWith (jsTrim line) pipeMark ||
          strStartsWith (jsTrim line) fenceMark || strStartsWith (jsTrim line) hruleMark ||
          strStartsWith (jsTrim line) quoteMark || strStartsWith (jsTrim line) crossBullet ||
          strStartsWith (jsTrim line) checkBullet || decide ((jsTrim line).length < 20)) = true
      · rw [if_pos h2] at h
        obtain ⟨l, hl, hrest⟩ := ih h
        exact ⟨l, List.mem_cons_of_mem _ hl, hrest⟩
      · rw [if_neg h2] at h
        by_cases h3 : (decide (0 < (jsTrim line).length)) = true
        · rw [if_pos h3] at h
          refine ⟨line, List.mem_cons_self _ _, by simpa using h3, ?_⟩
          simpa using h.symm
        · rw [if_neg h3] at h
          obtain ⟨l, hl, hrest⟩ := ih h
          exact ⟨l, List.mem_cons_of_mem _ hl, hrest⟩
    · rw [if_neg h1] at h
      obtain ⟨l, hl, hrest⟩ := ih h
      exact ⟨l, List.mem_cons_of_mem _ hl, hrest⟩

theorem excerptScanFallback_some {maxLength : Nat} :
    ∀ {lines : List String} {e : String},
      excerptScanFallback maxLength lines = some e →
      ∃ l ∈ lines, 0 < (jsTrim l).length ∧ e = excerptTruncate (jsTrim l) maxLength := by
  intro lines
  induction lines with
  | nil => intro e h; simp [excerptScanFallback] at h
  | cons line rest ih =>
    intro e h
    rw [excerptScanFallback] at h
    by_cases h1 : (decide (0 < (jsTrim line).length) && !strStartsWith (jsTrim line) hashMark &&
        !strStartsWith (jsTrim line) quoteMark && !strStartsWith (jsTrim line) hruleMark &&
        decide (20 < (jsTrim line).length)) = true
    · rw [if_pos h1] at h
      simp only [Bool.and_eq_true, decide_eq_true_eq] at h1
      refine ⟨line, List.mem_cons_self _ _, h1.1.1.1.1, ?_⟩
      simpa using h.symm
    · rw [if_neg h1] at h
      obtain ⟨l, hl, hrest⟩ := ih h
      exact ⟨l, List.mem_cons_of_mem _ hl, hrest⟩

theorem strTake_append_ellipsis_pos (s : String) (n : Nat) :
    0 < (strTake s n ++ "...").length := by
  have : (strTake s n ++ "...").data = (strTake s n).data ++ "...".data := by
    cases strTake s n with
    | mk d => rfl
  show 0 < (strTake s n ++ "...").data.length
  rw [this]
  simp

theorem extractExcerpt_shape (content : String) (queryTokens : List String) :
    ExcerptShape content (extractExcerpt content queryTokens 200) := by
  rw [extractExcerpt]
  cases h1 : excerptScanMatch queryTokens 200 (jsLines content) with
  | some e =>
    dsimp only
    obtain ⟨l, hl, hpos, he⟩ := excerptScanMatch_some h1
    rcases excerptTruncate_shape (jsTrim l) 200 with ⟨heq, hle⟩ | ⟨heq, hgt⟩
    · exact ⟨by rw [he, heq]; exact hpos, Or.inl ⟨l, hl, by rw [he, heq], hle⟩⟩
    · exact ⟨by rw [he, heq]; exact strTake_append_ellipsis_pos _ _,
        Or.inr (Or.inl ⟨l, hl, by rw [he, heq], hgt⟩)⟩
  | none =>
    dsimp only
    cases h2 : excerptScanFallback 200 (jsLines content) with
    | some e =>
      dsimp only
      obtain ⟨l, hl, hpos, he⟩ := excerptScanFallback_some h2
      rcases excerptTruncate_shape (jsTrim l) 200 with ⟨heq, hle⟩ | ⟨heq, hgt⟩
      · exact ⟨by rw [he, heq]; exact hpos, Or.inl ⟨l, hl, by rw [he, heq], hle⟩⟩
      · exact ⟨by rw [he, heq]; exact strTake_append_ellipsis_pos _ _,
        Or.inr (Or.inl ⟨l, hl, by rw [he, heq], hgt⟩)⟩
    | none =>
      exact ⟨by decide, Or.inr (Or.inr rfl)⟩

theorem forall_map_of_forall {α β : Type _} {P : β → Prop} {f : α → β}
    (h : ∀ x, P (f x)) : ∀ l : List α, List.Forall P (l.map f) := by
  intro l
  induction l with
  | nil => trivial
  | cons x rest ih =>
    rw [List.map_cons, List.forall_cons]
    exact ⟨h x, ih⟩

/-- C9: every excerpt attached to a search result is non-empty, and
`extractExcerpt` always returns either a trimmed line of the content of at
most 200 characters, or a trimmed line truncated to 200 characters with the
ellipsis marker appended, or the fixed non-empty placeholder string. -/
theorem c9_excerpt_nonempty :
    (∀ (s : SearchEngine) (q : String) (lim : Int) (filt : Option String),
      List.Forall (fun e => 0 < e.length) ((search s q lim filt).map SearchResult.excerpt)) ∧
    (∀ (content : String) (queryTokens : List String),
      ExcerptShape content (extractExcerpt content queryTokens 200)) := by
  refine ⟨?_, extractExcerpt_shape⟩
  intro s q lim filt
  rw [search]
  by_cases hq : tokenize q = []
  · rw [if_pos hq]
    exact trivial
  · rw [if_neg hq]
    dsimp only
    rw [List.map_map, List.forall_iff_forall_mem]
    intro e he
    rw [List.mem_map] at he
    obtain ⟨x, _, hx⟩ := he
    rw [← hx]
    exact (extractExcerpt_shape
      ((mapGet s.indexedDocs x.1).getD defaultIndexedDocument).entry.content
      (tokenize q)).1

/-! ## Claim C8 -/

/-- No backtick occurs in the list. -/
def noBacktickL (l : List Char) : Bool := l.all (fun c => !(c == backtick))

theorem noBacktickL_cons {c : Char} {l : List Char} (h : noBacktickL (c :: l) = true) :
    c ≠ backtick ∧ noBacktickL l = true := by
  simp only [noBacktickL, List.all_cons, Bool.and_eq_true, Bool.not_eq_true',
    beq_eq_false_iff_ne, ne_eq] at h
  exact ⟨h.1, by simp only [noBacktickL]; exact h.2⟩

theorem isTripleStart_cons_ne {c : Char} (hc : c ≠ backtick) (xs : List Char) :
    isTripleStart (c :: xs) = false := by
  cases xs with
  | nil => rfl
  | cons b rest =>
    cases rest with
    | nil => rfl
    | cons d rest2 => simp [isTripleStart, hc]

theorem splitAtTriple_cons_ne {c : Char} (hc : c ≠ backtick) (l : List Char) :
    splitAtTriple (c :: l) = (splitAtTriple l).map (fun p => (c :: p.1, p.2)) := by
  rw [splitAtTriple, isTripleStart_cons_ne hc]
  simp

theorem splitAtTriple_found {p : List Char} (hp : noBacktickL p = true) (X : List Char) :
    splitAtTriple (p ++ backtick :: backtick :: backtick :: X) = some (p, X) := by
  induction p with
  | nil =>
    rw [List.nil_append, splitAtTriple]
    have htr : isTripleStart (backtick :: backtick :: backtick :: X) = true := by
      simp [isTripleStart]
    rw [htr]
    simp
  | cons c p ih =>
    obtain ⟨hc, hp'⟩ := noBacktickL_cons hp
    rw [List.cons_append, splitAtTriple_cons_ne hc, ih hp']
    simp

theorem splitAtTriple_append {p : List Char} (hp : noBacktickL p = true) (l : List Char) :
    splitAtTriple (p ++ l) = (splitAtTriple l).map (fun q => (p ++ q.1, q.2)) := by
  induction p with
  | nil =>
    cases h : splitAtTriple l with
    | none => simp [h]
    | some pr => simp [h]
  | cons c p ih =>
    obtain ⟨hc, hp'⟩ := noBacktickL_cons hp
    rw [List.cons_append, splitAtTriple_cons_ne hc, ih hp']
    cases h : splitAtTriple l with
    | none => simp [h]
    | some pr => simp [h]

theorem stripFences_append {p : List Char} (hp : noBacktickL p = true) (l : List Char) :
    stripFences (p ++ l) = p ++ stripFences l := by
  conv_lhs => rw [stripFences_unfold]
  rw [splitAtTriple_append hp, stripFences_unfold l]
  cases h1 : splitAtTriple l with
  | none => simp
  | some pr =>
    obtain ⟨q, r⟩ := pr
    simp only [Option.map_some']
    cases h2 : splitAtTriple r with
    | none => simp
    | some pr2 =>
      obtain ⟨q2, r2⟩ := pr2
      simp [List.append_assoc]

theorem stripFences_fence {la lb : List Char} (ha : noBacktickL la = true)
    (hb : noBacktickL lb = true) (lc : List Char) :
    stripFences (la ++ backtick :: backtick :: backtick ::
        (lb ++ backtick :: backtick :: backtick :: lc)) =
      la ++ ' ' :: stripFences lc := by
  rw [stripFences_unfold, splitAtTriple_found ha]
  dsimp only
  rw [splitAtTriple_found hb]

theorem toLower_eq_backtick_iff (c : Char) : Char.toLower c = backtick ↔ c = backtick := by
  constructor
  · intro h
    by_cases hg : c.toNat ≥ 65 ∧ c.toNat ≤ 90
    · exfalso
      rw [Char.toLower] at h
      rw [if_pos hg] at h
      have hval : (c.toNat + 32).isValidChar := Or.inl (by omega)
      have htn : (Char.ofNat (c.toNat + 32)).toNat = c.toNat + 32 := by
        rw [Char.ofNat, dif_pos hval]
        rfl
      rw [h] at htn
      have hb : backtick.toNat = 96 := by decide
      omega
    · rw [Char.toLower, if_neg hg] at h
      exact h
  · intro h
    subst h
    decide

theorem noBacktickL_map_toLower {l : List Char} (h : noBacktickL l = true) :
    noBacktickL (l.map Char.toLower) = true := by
  simp only [noBacktickL, List.all_eq_true, List.mem_map, Bool.not_eq_true',
    beq_eq_false_iff_ne, ne_eq] at h ⊢
  rintro x ⟨c, hc, rfl⟩
  intro hx
  exact h c hc ((toLower_eq_backtick_iff c).mp hx)

theorem splitAtChar_cons_ne {t c : Char} (hc : c ≠ t) (l : List Char) :
    splitAtChar t (c :: l) = (splitAtChar t l).map (fun p => (c :: p.1, p.2)) := by
  rw [splitAtChar, if_neg hc]

theorem splitAtChar_found {p : List Char} (hp : noBacktickL p = true) (X : List Char) :
    splitAtChar backtick (p ++ backtick :: X) = some (p, X) := by
  induction p with
  | nil =>
    rw [List.nil_append, splitAtChar, if_pos rfl]
  | cons c p ih =>
    obtain ⟨hc, hp'⟩ := noBacktickL_cons hp
    rw [List.cons_append, splitAtChar_cons_ne hc, ih hp']
    simp

theorem splitAtChar_append {p : List Char} (hp : noBacktickL p = true) (l : List Char) :
    splitAtChar backtick (p ++ l) = (splitAtChar backtick l).map (fun q => (p ++ q.1, q.2)) := by
  induction p with
  | nil =>
    cases h : splitAtChar backtick l with
    | none => simp [h]
    | some pr => simp [h]
  | cons c p ih =>
    obtain ⟨hc, hp'⟩ := noBacktickL_cons hp
    rw [List.cons_append, splitAtChar_cons_ne hc, ih hp']
    cases h : splitAtChar backtick l with
    | none => simp [h]
    | some pr => simp [h]

theorem stripInline_append {p : List Char} (hp : noBacktickL p = true) (l : List Char) :
    stripInline (p ++ l) = p ++ stripInline l := by
  conv_lhs => rw [stripInline_unfold]
  rw [splitAtChar_append hp, stripInline_unfold l]
  cases h1 : splitAtChar backtick l with
  | none => simp
  | some pr =>
    obtain ⟨q, r⟩ := pr
    simp only [Option.map_some']
    cases h2 : splitAtChar backtick r with
    | none => simp
    | some pr2 =>
      obtain ⟨m, r2⟩ := pr2
      simp only [Option.map_some']
      by_cases hm : m = []
      · simp [hm]
      · simp [hm, List.append_assoc]

theorem stripInline_span {la lb : List Char} (ha : noBacktickL la = true)
    (hb : noBacktickL lb = true) (hne : lb ≠ []) (lc : List Char) :
    stripInline (la ++ backtick :: (lb ++ backtick :: lc)) =
      la ++ ' ' :: stripInline lc := by
  rw [stripInline_unfold, splitAtChar_found ha]
  dsimp only
  rw [splitAtChar_found hb]
  dsimp only
  rw [if_neg hne]

/-- `containsTriple l` is true when `l` contains three consecutive
backticks (the fence regular expression can fire on `l`). -/
def containsTriple (l : List Char) : Bool := (splitAtTriple l).isSome

theorem stripFences_of_not_containsTriple {l : List Char}
    (h : containsTriple l = false) : stripFences l = l := by
  rw [stripFences_unfold]
  rw [containsTriple] at h
  have hn : splitAtTriple l = none := by
    cases hs : splitAtTriple l with
    | none => rfl
    | some pr => rw [hs] at h; simp at h
  rw [hn]

theorem containsTriple_cons (a : Char) (l : List Char) :
    containsTriple (a :: l) = (isTripleStart (a :: l) || containsTriple l) := by
  rw [containsTriple, splitAtTriple]
  by_cases htr : isTripleStart (a :: l) = true
  · simp [htr]
  · simp only [htr, Bool.false_eq_true, if_false, Bool.false_or]
    rw [containsTriple]
    cases h : splitAtTriple l with
    | none => simp
    | some pr => simp

theorem isTripleStart_append_right {l : List Char} (h : isTripleStart l = true)
    (y : List Char) : isTripleStart (l ++ y) = true := by
  match l, h with
  | a :: b :: c :: rest, h => exact h

theorem containsTriple_append_right {x : List Char} (h : containsTriple x = true)
    (y : List Char) : containsTriple (x ++ y) = true := by
  induction x with
  | nil => simp [containsTriple, splitAtTriple] at h
  | cons a x' ih =>
    rw [containsTriple_cons] at h
    rw [List.cons_append, containsTriple_cons]
    rcases Bool.or_eq_true_iff.mp h with h1 | h2
    · rw [← List.cons_append, isTripleStart_append_right h1]
      simp
    · rw [ih h2]
      simp

theorem containsTriple_append_left {y : List Char} (h : containsTriple y = true)
    (x : List Char) : containsTriple (x ++ y) = true := by
  induction x with
  | nil => simpa using h
  | cons a x' ih =>
    rw [List.cons_append, containsTriple_cons, ih]
    simp

theorem containsTriple_split {c : Char} (hc : c ≠ backtick) :
    ∀ (la lc : List Char), containsTriple (la ++ c :: lc) = true →
      containsTriple la = true ∨ containsTriple lc = true := by
  intro la
  induction la with
  | nil =>
    intro lc h
    rw [List.nil_append, containsTriple_cons, isTripleStart_cons_ne hc] at h
    right
    simpa using h
  | cons a la' ih =>
    intro lc h
    rw [List.cons_append, containsTriple_cons] at h
    rcases Bool.or_eq_true_iff.mp h with h1 | h2
    · left
      cases la' with
      | nil =>
        exfalso
        cases lc with
        | nil => exact Bool.noConfusion h1
        | cons x lc' =>
          simp only [List.nil_append, isTripleStart, Bool.and_eq_true,
            decide_eq_true_eq] at h1
          exact hc h1.1.2
      | cons b la'' =>
        cases la'' with
        | nil =>
          exfalso
          simp only [List.cons_append, List.nil_append, isTripleStart,
            Bool.and_eq_true, decide_eq_true_eq] at h1
          exact hc h1.2
        | cons d la''' =>
          simp only [List.cons_append, isTripleStart, Bool.and_eq_true,
            decide_eq_true_eq] at h1
          rw [containsTriple_cons]
          have : isTripleStart (a :: b :: d :: la''') = true := by
            simp [isTripleStart, h1.1.1, h1.1.2, h1.2]
          rw [this]
          simp
    · rcases ih lc h2 with hla | hlc
      · left
        rw [containsTriple_cons, hla]
        simp
      · right
        exact hlc

theorem containsTriple_span_parts {la lb lc : List Char}
    (h : containsTriple (la ++ backtick :: (lb ++ backtick :: lc)) = false) :
    containsTriple (la ++ ' ' :: lc) = false := by
  by_contra hcon
  rw [Bool.not_eq_false] at hcon
  rcases containsTriple_split (by decide) la lc hcon with hla | hlc
  · rw [containsTriple_append_right hla (backtick :: (lb ++ backtick :: lc))] at h
    exact Bool.noConfusion h
  · have : la ++ backtick :: (lb ++ backtick :: lc) =
        (la ++ backtick :: lb ++ [backtick]) ++ lc := by
      simp [List.append_assoc]
    rw [this, containsTriple_append_left hlc] at h
    exact Bool.noConfusion h

theorem isTripleStart_map_toLower (l : List Char) :
    isTripleStart (l.map Char.toLower) = isTripleStart l := by
  cases l with
  | nil => rfl
  | cons a l1 =>
    cases l1 with
    | nil => rfl
    | cons b l2 =>
      cases l2 with
      | nil => rfl
      | cons c l3 =>
        simp only [List.map_cons, isTripleStart]
        rw [decide_eq_decide.mpr (toLower_eq_backtick_iff a),
          decide_eq_decide.mpr (toLower_eq_backtick_iff b),
          decide_eq_decide.mpr (toLower_eq_backtick_iff c)]

theorem containsTriple_map_toLower (l : List Char) :
    containsTriple (l.map Char.toLower) = containsTriple l := by
  induction l with
  | nil => rfl
  | cons a l ih =>
    rw [List.map_cons, containsTriple_cons, ← List.map_cons, isTripleStart_map_toLower,
      containsTriple_cons, ih]

theorem splitRuns_pieces :
    ∀ (n : Nat) (l : List Char), l.length ≤ n →
      ∀ piece ∈ splitRuns l, ∀ c ∈ piece, isTokenChar c = true := by
  intro n
  induction n with
  | zero =>
    intro l hl piece hp c hc
    have hnil : l = [] := List.eq_nil_of_length_eq_zero (Nat.le_zero.mp hl)
    subst hnil
    simp [splitRuns, splitRunsF] at hp
    subst hp
    simp at hc
  | succ n ih =>
    intro l hl piece hp c hc
    rw [splitRuns_unfold] at hp
    cases hr : l.dropWhile isTokenChar with
    | nil =>
      rw [hr] at hp
      simp only [List.mem_singleton] at hp
      subst hp
      exact List.mem_takeWhile_imp hc
    | cons x rs =>
      rw [hr] at hp
      simp only [List.mem_cons] at hp
      rcases hp with hp | hp
      · subst hp
        exact List.mem_takeWhile_imp hc
      · have e0 : (l.dropWhile isTokenChar).length ≤ l.length := dropWhile_length_le _ _
        rw [hr] at e0
        simp only [List.length_cons] at e0
        have e1 : (rs.dropWhile (fun c => !isTokenChar c)).length ≤ rs.length :=
          dropWhile_length_le _ _
        exact ih (rs.dropWhile (fun c => !isTokenChar c)) (by omega) piece hp c hc

theorem noBacktickL_append_space {p : List Char} (hp : noBacktickL p = true) :
    noBacktickL (p ++ [' ']) = true := by
  simp only [noBacktickL, List.all_append, Bool.and_eq_true] at hp ⊢
  exact ⟨hp, by decide⟩

/-- C8: (i) every token produced by `tokenize` has length at least two,
consists only of characters in `[a-z0-9-]`, and is not a stop word;
(ii) the contents of a paired triple-backtick code fence never appear among
the tokens: a text `a```b```c` whose fence delimiters are the only backticks
around `b` tokenizes exactly like the text with the whole fence removed;
(iii) likewise the contents of a single-backtick inline code span never
appear among the tokens (in the absence of triple-backtick runs, which the
fence pass would consume first). -/
theorem c8_tokenize_guarantees :
    (∀ (text : String), ∀ t ∈ tokenize text,
        2 ≤ t.length ∧ (∀ c ∈ t.data, isTokenChar c = true) ∧
          STOP_WORDS.contains t = false) ∧
    (∀ a b c : String, noBacktickL a.data = true → noBacktickL b.data = true →
        tokenize (a ++ "```" ++ b ++ "```" ++ c) = tokenize (a ++ " " ++ c)) ∧
    (∀ a b c : String, noBacktickL a.data = true → noBacktickL b.data = true → b ≠ "" →
        containsTriple (a ++ "`" ++ b ++ "`" ++ c).data = false →
        tokenize (a ++ "`" ++ b ++ "`" ++ c) = tokenize (a ++ " " ++ c)) := by
  refine ⟨?_, ?_, ?_⟩
  · intro text t ht
    rw [tokenize, tokenizeNoFences, tokenizeNoInline, tokenizeSplit] at ht
    rw [List.mem_filter] at ht
    obtain ⟨hmem, hpred⟩ := ht
    simp only [Bool.and_eq_true, decide_eq_true_eq, Bool.not_eq_true'] at hpred
    obtain ⟨hlen, hstop⟩ := hpred
    refine ⟨hlen, ?_, hstop⟩
    rw [List.mem_map] at hmem
    obtain ⟨piece, hpiece, rfl⟩ := hmem
    intro c hc
    have hdata : (String.mk piece).data = piece := rfl
    rw [hdata] at hc
    exact splitRuns_pieces _ _ (le_refl _) piece hpiece c hc
  · intro a b c ha hb
    rw [tokenize, tokenize]
    have hdl : (a ++ "```" ++ b ++ "```" ++ c).data.map Char.toLower =
        (a.data.map Char.toLower) ++ backtick :: backtick :: backtick ::
          ((b.data.map Char.toLower) ++ backtick :: backtick :: backtick ::
            (c.data.map Char.toLower)) := by
      simp only [String.data_append, List.map_append]
      have h3 : (("```" : String).data.map Char.toLower) = [backtick, backtick, backtick] := by
        decide
      rw [h3]
      simp [List.append_assoc]
    have hdr : (a ++ " " ++ c).data.map Char.toLower =
        (a.data.map Char.toLower) ++ ' ' :: (c.data.map Char.toLower) := by
      simp only [String.data_append, List.map_append]
      have h1 : ((" " : String).data.map Char.toLower) = [' '] := by decide
      rw [h1]
      simp [List.append_assoc]
    rw [hdl, hdr,
      stripFences_fence (noBacktickL_map_toLower ha) (noBacktickL_map_toLower hb)]
    have hsplit : (a.data.map Char.toLower) ++ ' ' :: (c.data.map Char.toLower) =
        ((a.data.map Char.toLower) ++ [' ']) ++ (c.data.map Char.toLower) := by
      simp
    rw [hsplit, stripFences_append (noBacktickL_append_space (noBacktickL_map_toLower ha))]
    have harg : (a.data.map Char.toLower) ++ ' ' :: stripFences (c.data.map Char.toLower) =
        ((a.data.map Char.toLower) ++ [' ']) ++ stripFences (c.data.map Char.toLower) := by
      simp
    rw [harg]
  · intro a b c ha hb hbne hnt
    rw [tokenize, tokenize]
    have hdl : (a ++ "`" ++ b ++ "`" ++ c).data.map Char.toLower =
        (a.data.map Char.toLower) ++ backtick ::
          ((b.data.map Char.toLower) ++ backtick :: (c.data.map Char.toLower)) := by
      simp only [String.data_append, List.map_append]
      have h1 : (("`" : String).data.map Char.toLower) = [backtick] := by decide
      rw [h1]
      simp [List.append_assoc]
    have hdr : (a ++ " " ++ c).data.map Char.toLower =
        (a.data.map Char.toLower) ++ ' ' :: (c.data.map Char.toLower) := by
      simp only [String.data_append, List.map_append]
      have h1 : ((" " : String).data.map Char.toLower) = [' '] := by decide
      rw [h1]
      simp [List.append_assoc]
    have hnt1 : containsTriple ((a ++ "`" ++ b ++ "`" ++ c).data.map Char.toLower) = false := by
      rw [containsTriple_map_toLower]
      exact hnt
    rw [hdl] at hnt1
    have hnt2 : containsTriple
        ((a.data.map Char.toLower) ++ ' ' :: (c.data.map Char.toLower)) = false :=
      containsTriple_span_parts hnt1
    rw [hdl, hdr, stripFences_of_not_containsTriple hnt1,
      stripFences_of_not_containsTriple hnt2]
    rw [tokenizeNoFences, tokenizeNoFences]
    have hbl : (b.data.map Char.toLower) ≠ [] := by
      intro hh
      rw [List.map_eq_nil] at hh
      apply hbne
      cases b with
      | mk d =>
        simp only at hh
        rw [hh]
    rw [stripInline_span (noBacktickL_map_toLower ha) (noBacktickL_map_toLower hb) hbl]
    have hsplit : (a.data.map Char.toLower) ++ ' ' :: (c.data.map Char.toLower) =
        ((a.data.map Char.toLower) ++ [' ']) ++ (c.data.map Char.toLower) := by
      simp
    rw [hsplit, stripInline_append (noBacktickL_append_space (noBacktickL_map_toLower ha))]
    have harg : (a.data.map Char.toLower) ++ ' ' :: stripInline (c.data.map Char.toLower) =
        ((a.data.map Char.toLower) ++ [' ']) ++ stripInline (c.data.map Char.toLower) := by
      simp
    rw [harg]

/-- Witness for C8 at concrete inputs: part (i) at a concrete token of a
concrete text, parts (ii) and (iii) on concrete fenced and inline-code
texts. -/
theorem c8_witness :
    ("commit" ∈ tokenize "Git commit rules" ∧
      2 ≤ ("commit" : String).length ∧
        (∀ c ∈ ("commit" : String).data, isTokenChar c = true) ∧
        STOP_WORDS.contains "commit" = false) ∧
    tokenize ("use " ++ "```" ++ "secret fence words" ++ "```" ++ " after") =
      tokenize ("use " ++ " " ++ " after") ∧
    tokenize ("use " ++ "`" ++ "hidden span" ++ "`" ++ " after") =
      tokenize ("use " ++ " " ++ " after") := by
  refine ⟨⟨by decide, ?_⟩, ?_, ?_⟩
  · exact c8_tokenize_guarantees.1 "Git commit rules" "commit" (by decide)
  · exact c8_tokenize_guarantees.2.1 "use " "secret fence words" " after"
      (by decide) (by decide)
  · exact c8_tokenize_guarantees.2.2 "use " "hidden span" " after"
      (by decide) (by decide) (by decide) (by decide)

/-! ## Split/join round-trip lemmas -/

theorem joinChar_cons_cons (sep : Char) (p q : List Char) (ps : List (List Char)) :
    joinChar sep (p :: q :: ps) = p ++ sep :: joinChar sep (q :: ps) := rfl

theorem joinChar_splitChar (sep : Char) : ∀ l : List Char,
    joinChar sep (splitChar sep l) = l := by
  intro l
  induction l with
  | nil => rfl
  | cons c rest ih =>
    rw [splitChar]
    cases h : splitChar sep rest with
    | nil => exact absurd h (splitChar_ne_nil sep rest)
    | cons p ps =>
      dsimp only
      rw [h] at ih
      by_cases hc : c = sep
      · rw [if_pos hc, joinChar_cons_cons, List.nil_append, ih, hc]
      · rw [if_neg hc]
        cases ps with
        | nil =>
          rw [joinChar] at ih ⊢
          rw [ih]
        | cons q ps' =>
          rw [joinChar_cons_cons] at ih
          rw [joinChar_cons_cons, ← ih]
          simp

theorem splitChar_append_cons (sep : Char) :
    ∀ (x y : List Char), splitChar sep (x ++ sep :: y) = splitChar sep x ++ splitChar sep y := by
  intro x
  induction x with
  | nil =>
    intro y
    rw [List.nil_append]
    conv_lhs => rw [splitChar]
    cases h : splitChar sep y with
    | nil => exact absurd h (splitChar_ne_nil sep y)
    | cons p ps =>
      dsimp only
      rw [if_pos rfl]
      rfl
  | cons c x' ih =>
    intro y
    rw [List.cons_append, splitChar, ih y]
    cases h : splitChar sep x' with
    | nil => exact absurd h (splitChar_ne_nil sep x')
    | cons p ps =>
      rw [List.cons_append]
      dsimp only
      rw [splitChar, h]
      dsimp only
      by_cases hc : c = sep
      · rw [if_pos hc, if_pos hc]
        simp
      · rw [if_neg hc, if_neg hc]
        simp

theorem splitChar_pieces_no_sep (sep : Char) :
    ∀ (l : List Char), ∀ piece ∈ splitChar sep l, sep ∉ piece := by
  intro l
  induction l with
  | nil =>
    intro piece hp
    simp [splitChar] at hp
    subst hp
    simp
  | cons c rest ih =>
    intro piece hp
    rw [splitChar] at hp
    cases h : splitChar sep rest with
    | nil => exact absurd h (splitChar_ne_nil sep rest)
    | cons p ps =>
      rw [h] at hp
      dsimp only at hp
      by_cases hc : c = sep
      · rw [if_pos hc] at hp
        rcases List.mem_cons.mp hp with h1 | h1
        · subst h1; simp
        · exact ih piece (h ▸ h1)
      · rw [if_neg hc] at hp
        rcases List.mem_cons.mp hp with h1 | h1
        · subst h1
          intro hmem
          rcases List.mem_cons.mp hmem with h2 | h2
          · exact hc h2.symm
          · exact ih p (h ▸ List.mem_cons_self p ps) h2
        · exact ih piece (h ▸ List.mem_cons.mpr (Or.inr h1))

theorem splitChar_of_no_sep {sep : Char} :
    ∀ {l : List Char}, sep ∉ l → splitChar sep l = [l] := by
  intro l
  induction l with
  | nil => intro _; rfl
  | cons c rest ih =>
    intro h
    have hc : c ≠ sep := fun hcc => h (hcc ▸ List.mem_cons_self c rest)
    have hrest : sep ∉ rest := fun hm => h (List.mem_cons.mpr (Or.inr hm))
    rw [splitChar, ih hrest]
    dsimp only
    rw [if_neg hc]

theorem splitChar_joinChar (sep : Char) :
    ∀ (pieces : List (List Char)), pieces ≠ [] → (∀ p ∈ pieces, sep ∉ p) →
      splitChar sep (joinChar sep pieces) = pieces := by
  intro pieces
  induction pieces with
  | nil => intro h _; exact absurd rfl h
  | cons p ps ih =>
    intro _ hall
    cases ps with
    | nil =>
      rw [joinChar]
      exact splitChar_of_no_sep (hall p (List.mem_cons_self p []))
    | cons q ps' =>
      rw [joinChar_cons_cons, splitChar_append_cons,
        splitChar_of_no_sep (hall p (List.mem_cons_self p _)),
        ih (by simp) (fun x hx => hall x (List.mem_cons.mpr (Or.inr hx)))]
      rfl

theorem joinNl_jsLines (s : String) : joinNl (jsLines s) = s := by
  rw [jsLines_eq, joinNl]
  cases s with
  | mk d =>
    congr 1
    rw [List.map_map]
    have hmm : ((splitChar '\n' d).map (String.data ∘ String.mk)) =
        (splitChar '\n' d).map id := List.map_congr_left (fun x _ => rfl)
    rw [hmm, List.map_id, joinChar_splitChar]

theorem jsLines_append_nl (x y : String) : jsLines (x ++ "\n" ++ y) = jsLines x ++ jsLines y := by
  rw [jsLines_eq, jsLines_eq, jsLines_eq]
  have hd : (x ++ "\n" ++ y).data = x.data ++ '\n' :: y.data := by
    rw [String.data_append, String.data_append, List.append_assoc]
    rfl
  rw [hd, splitChar_append_cons, List.map_append]

theorem jsLines_ne_nil (s : String) : jsLines s ≠ [] := by
  rw [jsLines_eq]
  intro h
  exact splitChar_ne_nil '\n' s.data (List.map_eq_nil.mp h)

theorem jsLines_no_nl (s : String) : ∀ l ∈ jsLines s, '\n' ∉ l.data := by
  intro l hl
  rw [jsLines_eq, List.mem_map] at hl
  obtain ⟨piece, hpiece, rfl⟩ := hl
  exact splitChar_pieces_no_sep '\n' s.data piece hpiece

theorem jsLines_joinNl_of_no_nl :
    ∀ (ls : List String), ls ≠ [] → (∀ l ∈ ls, '\n' ∉ l.data) →
      jsLines (joinNl ls) = ls := by
  intro ls hne hnl
  rw [jsLines_eq, joinNl]
  have hd : (String.mk (joinChar '\n' (ls.map String.data))).data =
      joinChar '\n' (ls.map String.data) := rfl
  rw [hd, splitChar_joinChar '\n' (ls.map String.data) (by simpa using hne)
    (by intro p hp; rw [List.mem_map] at hp; obtain ⟨l, hl, rfl⟩ := hp; exact hnl l hl)]
  rw [List.map_map]
  have hmm : (ls.map (String.mk ∘ String.data)) = ls.map id :=
    List.map_congr_left (fun x _ => rfl)
  rw [hmm, List.map_id]

/-! ## C2: parser reassembly round-trip -/

/-- Reassembly unit taken from the specification's words: the header line, a
newline, and the content, with the header omitted for the empty-header
preamble case. This definition follows the spec, to be compared with the
parser `parseProjectMdSections` translated from the source. -/
def sectionUnit (s : ParsedSection) : String :=
  if s.header = "" then s.content else s.header ++ "\n" ++ s.content

/-- Reassembly from the specification's words: units joined by newlines,
in order. -/
def reassembleSections (sections : List ParsedSection) : String :=
  joinNl (sections.map sectionUnit)

/-- Holds when no two consecutive lines are both level-2 headers. -/
def noAdjacentHeaders : List String → Bool
  | l1 :: l2 :: rest =>
    (!(isLevel2Header l1 && isLevel2Header l2)) && noAdjacentHeaders (l2 :: rest)
  | _ => true

/-- Holds when the first line, if any, is not a level-2 header. -/
def headNotHeader : List String → Bool
  | [] => true
  | l :: _ => !(isLevel2Header l)

/-- Sample document for the C2 witness. -/
def c2SampleText : String := "## A\nhello"

/-- Adjacent-header document for the C2 counterexample. -/
def c2AdjText : String := "## A\n## B"

theorem joinNl_nil : joinNl [] = "" := rfl

theorem joinNl_single (s : String) : joinNl [s] = s := by
  cases s with
  | mk d => rfl

theorem joinNl_cons_cons (s t : String) (ts : List String) :
    joinNl (s :: t :: ts) = s ++ "\n" ++ joinNl (t :: ts) := by
  apply String.ext
  rw [String.data_append, String.data_append]
  show joinChar '\n' (s.data :: t.data :: ts.map String.data) = _
  rw [joinChar_cons_cons]
  rw [List.append_assoc]
  rfl

theorem joinNl_cons_of_ne (s : String) (ls : List String) (h : ls ≠ []) :
    joinNl (s :: ls) = s ++ "\n" ++ joinNl ls := by
  cases ls with
  | nil => exact absurd rfl h
  | cons t ts => exact joinNl_cons_cons s t ts

theorem joinChar_append (sep : Char) (ps : List (List Char)) :
    ∀ (qs : List (List Char)), ps ≠ [] → qs ≠ [] →
      joinChar sep (ps ++ qs) = joinChar sep ps ++ sep :: joinChar sep qs := by
  induction ps with
  | nil => intro qs h _; exact absurd rfl h
  | cons p ps' ih =>
    intro qs _ hq
    cases ps' with
    | nil =>
      cases qs with
      | nil => exact absurd rfl hq
      | cons q qs' =>
        rw [List.cons_append, List.nil_append, joinChar_cons_cons]
        rfl
    | cons p2 ps'' =>
      have ih' := ih qs (by simp) hq
      rw [List.cons_append] at ih'
      rw [List.cons_append, List.cons_append, joinChar_cons_cons, ih',
        joinChar_cons_cons]
      simp

theorem joinNl_append (xs ys : List String) (hx : xs ≠ []) (hy : ys ≠ []) :
    joinNl (xs ++ ys) = joinNl xs ++ "\n" ++ joinNl ys := by
  apply String.ext
  rw [String.data_append, String.data_append]
  show joinChar '\n' ((xs ++ ys).map String.data) = _
  rw [List.map_append, joinChar_append '\n' (xs.map String.data) (ys.map String.data)
    (by simpa using hx) (by simpa using hy)]
  show _ = joinChar '\n' (xs.map String.data) ++ "\n".data ++
    joinChar '\n' (ys.map String.data)
  rw [List.append_assoc]
  rfl

theorem sectionUnit_mk_pos (hd : String) (lvl : Nat) (c : String) (h : ¬hd = "") :
    sectionUnit ⟨hd, lvl, c⟩ = hd ++ "\n" ++ c := by
  simp only [sectionUnit]
  rw [if_neg h]

theorem sectionUnit_mk_empty (lvl : Nat) (c : String) :
    sectionUnit ⟨"", lvl, c⟩ = c := by
  simp [sectionUnit]

theorem noAdjacentHeaders_tail {l : String} {rest : List String}
    (h : noAdjacentHeaders (l :: rest) = true) : noAdjacentHeaders rest = true := by
  cases rest with
  | nil => rfl
  | cons l2 r =>
    rw [noAdjacentHeaders, Bool.and_eq_true] at h
    exact h.2

theorem noAdjacentHeaders_head {l1 l2 : String} {rest : List String}
    (h : noAdjacentHeaders (l1 :: l2 :: rest) = true)
    (h1 : isLevel2Header l1 = true) : isLevel2Header l2 = false := by
  rw [noAdjacentHeaders, Bool.and_eq_true] at h
  cases hb : isLevel2Header l2
  · rfl
  · have h' := h.1
    rw [h1, hb] at h'
    exact absurd h' (by decide)

theorem header_ne_empty {l : String} (h : isLevel2Header l = true) : l ≠ "" := by
  intro he
  rw [he] at h
  exact absurd h (by decide)

theorem emitCond_true {hd : String} (acc : List String) (hne : hd ≠ "") :
    (decide (hd ≠ "") || decide (acc ≠ [])) = true := by
  simp only [Bool.or_eq_true, decide_eq_true_eq]
  exact Or.inl hne

theorem parseLoop_ne_nil (lines : List String) : ∀ (hd : String) (lvl : Nat)
    (acc : List String), hd ≠ "" → parseLoop lines hd lvl acc ≠ [] := by
  induction lines with
  | nil =>
    intro hd lvl acc hne hcon
    rw [parseLoop, if_pos (emitCond_true acc hne)] at hcon
    exact List.cons_ne_nil _ _ hcon
  | cons l rest ih =>
    intro hd lvl acc hne hcon
    rw [parseLoop] at hcon
    by_cases hl : isLevel2Header l = true
    · rw [if_pos hl, if_pos (emitCond_true acc hne), List.cons_append,
        List.nil_append] at hcon
      exact List.cons_ne_nil _ _ hcon
    · rw [if_neg hl] at hcon
      exact ih hd lvl (acc ++ [l]) hne hcon

theorem headNotHeader_of_adj {l : String} {rest : List String}
    (hadj : noAdjacentHeaders (l :: rest) = true)
    (hl : isLevel2Header l = true) : headNotHeader rest = true := by
  cases rest with
  | nil => rfl
  | cons r2 rs =>
    rw [headNotHeader, noAdjacentHeaders_head hadj hl]
    rfl

theorem parseLoop_units_headed (lines : List String) :
    ∀ (hd : String) (lvl : Nat) (acc : List String), hd ≠ "" →
    noAdjacentHeaders lines = true →
    (acc = [] → headNotHeader lines = true) →
    joinNl ((parseLoop lines hd lvl acc).map sectionUnit) =
      joinNl (hd :: (acc ++ lines)) ∨
    joinNl ((parseLoop lines hd lvl acc).map sectionUnit) =
      joinNl (hd :: (acc ++ lines)) ++ "\n" := by
  induction lines with
  | nil =>
    intro hd lvl acc hne _ _
    rw [parseLoop, if_pos (emitCond_true acc hne), List.map_cons, List.map_nil,
      List.append_nil, joinNl_single, sectionUnit_mk_pos hd lvl (joinNl acc) hne]
    cases acc with
    | nil =>
      right
      rw [joinNl_single, joinNl_nil, String.append_empty]
    | cons a as =>
      left
      rw [joinNl_cons_cons]
  | cons l rest ih =>
    intro hd lvl acc hne hadj hacc
    rw [parseLoop]
    by_cases hl : isLevel2Header l = true
    · have haccne : acc ≠ [] := by
        intro he
        have hh := hacc he
        rw [headNotHeader, hl] at hh
        exact absurd hh (by decide)
      rw [if_pos hl, if_pos (emitCond_true acc hne), List.cons_append,
        List.nil_append, List.map_cons]
      have hpne : parseLoop rest l 2 [] ≠ [] :=
        parseLoop_ne_nil rest l 2 [] (header_ne_empty hl)
      have hmne : (parseLoop rest l 2 []).map sectionUnit ≠ [] := by
        intro hh
        exact hpne (List.map_eq_nil_iff.mp hh)
      rw [joinNl_cons_of_ne _ _ hmne, sectionUnit_mk_pos hd lvl (joinNl acc) hne]
      have hrec := ih l 2 [] (header_ne_empty hl) (noAdjacentHeaders_tail hadj)
        (fun _ => headNotHeader_of_adj hadj hl)
      rw [List.nil_append] at hrec
      have hsplit : joinNl (hd :: (acc ++ l :: rest)) =
          hd ++ "\n" ++ (joinNl acc ++ "\n" ++ joinNl (l :: rest)) := by
        rw [joinNl_cons_of_ne _ _ (by simp),
          joinNl_append acc (l :: rest) haccne (by simp)]
      rcases hrec with hrec | hrec
      · left
        rw [hrec, hsplit]
        simp [String.append_assoc]
      · right
        rw [hrec, hsplit]
        simp [String.append_assoc]
    · rw [if_neg hl]
      have hrec := ih hd lvl (acc ++ [l]) hne (noAdjacentHeaders_tail hadj)
        (fun he => absurd he (by simp))
      rw [List.append_assoc, List.singleton_append] at hrec
      exact hrec

theorem parseLoop_units_preamble (lines : List String) :
    ∀ (acc : List String), noAdjacentHeaders lines = true →
    joinNl ((parseLoop lines "" 0 acc).map sectionUnit) = joinNl (acc ++ lines) ∨
    joinNl ((parseLoop lines "" 0 acc).map sectionUnit) =
      joinNl (acc ++ lines) ++ "\n" := by
  induction lines with
  | nil =>
    intro acc _
    rw [parseLoop, List.append_nil]
    cases acc with
    | nil =>
      rw [if_neg (by simp)]
      left
      rfl
    | cons a as =>
      rw [if_pos (by simp), List.map_cons, List.map_nil, joinNl_single,
        sectionUnit_mk_empty]
      left
      rfl
  | cons l rest ih =>
    intro acc hadj
    rw [parseLoop]
    by_cases hl : isLevel2Header l = true
    · rw [if_pos hl]
      have hrec := parseLoop_units_headed rest l 2 [] (header_ne_empty hl)
        (noAdjacentHeaders_tail hadj) (fun _ => headNotHeader_of_adj hadj hl)
      rw [List.nil_append] at hrec
      cases acc with
      | nil =>
        rw [if_neg (by simp), List.nil_append, List.nil_append]
        exact hrec
      | cons a as =>
        rw [if_pos (by simp), List.cons_append, List.nil_append, List.map_cons]
        have hpne : parseLoop rest l 2 [] ≠ [] :=
          parseLoop_ne_nil rest l 2 [] (header_ne_empty hl)
        have hmne : (parseLoop rest l 2 []).map sectionUnit ≠ [] := by
          intro hh
          exact hpne (List.map_eq_nil_iff.mp hh)
        rw [joinNl_cons_of_ne _ _ hmne, sectionUnit_mk_empty]
        have hsplit : joinNl ((a :: as) ++ l :: rest) =
            joinNl (a :: as) ++ "\n" ++ joinNl (l :: rest) :=
          joinNl_append (a :: as) (l :: rest) (by simp) (by simp)
        rcases hrec with hrec | hrec
        · left
          rw [hrec, hsplit]
        · right
          rw [hrec, hsplit]
          simp [String.append_assoc]
    · rw [if_neg hl]
      have hrec := ih (acc ++ [l]) (noAdjacentHeaders_tail hadj)
      rw [List.append_assoc, List.singleton_append] at hrec
      exact hrec

/-- C2: corrected. For inputs in which no two consecutive lines are both
level-2 headers, reassembling the sections returned by
`parseProjectMdSections` — each section contributed as header, newline and
content, the empty-header preamble as its content alone, units joined by
newlines — reproduces the input exactly or with one extra trailing newline.
Without that restriction the round-trip fails (see the counterexample). -/
theorem c2_amended_roundtrip (text : String)
    (h : noAdjacentHeaders (jsLines text) = true) :
    reassembleSections (parseProjectMdSections text) = text ∨
    reassembleSections (parseProjectMdSections text) = text ++ "\n" := by
  have hrec := parseLoop_units_preamble (jsLines text) [] h
  rw [List.nil_append, joinNl_jsLines] at hrec
  exact hrec

/-- Witness for C2 at a concrete two-line document. -/
theorem c2_amended_roundtrip_witness :
    noAdjacentHeaders (jsLines c2SampleText) = true ∧
    (reassembleSections (parseProjectMdSections c2SampleText) = c2SampleText ∨
     reassembleSections (parseProjectMdSections c2SampleText) =
       c2SampleText ++ "\n") :=
  ⟨by decide, c2_amended_roundtrip c2SampleText (by decide)⟩

/-- Counterexample for C2 as stated: on a document whose two lines are both
level-2 headers, the reassembled text differs from the input and also from
the input with a trailing newline appended. -/
theorem c2_counterexample :
    reassembleSections (parseProjectMdSections c2AdjText) ≠ c2AdjText ∧
    reassembleSections (parseProjectMdSections c2AdjText) ≠ c2AdjText ++ "\n" := by
  decide

/-! ## C3: self-merge -/

/-- Boolean equality of parsed sections, built from the iterative string
comparison `strEqB`. -/
def sectionBeq (a b : ParsedSection) : Bool :=
  strEqB a.header b.header && a.level == b.level && strEqB a.content b.content

/-- Date string used by the C3 witness. -/
def c3Date : String := "2026-10-12"

theorem strEqB_self (s : String) : strEqB s s = true := (strEqB_iff s s).mpr rfl

theorem sectionBeq_iff (a b : ParsedSection) : sectionBeq a b = true ↔ a = b := by
  constructor
  · intro h
    cases a with
    | mk ah al ac =>
      cases b with
      | mk bh bl bc =>
        rw [sectionBeq] at h
        dsimp only at h
        rw [Bool.and_eq_true, Bool.and_eq_true, strEqB_iff, strEqB_iff,
          beq_iff_eq] at h
        obtain ⟨⟨h1, h2⟩, h3⟩ := h
        rw [h1, h2, h3]
  · intro h
    rw [h, sectionBeq, strEqB_self, strEqB_self]
    simp

theorem sectionUnit_pos (s : ParsedSection) (h : ¬s.header = "") :
    sectionUnit s = s.header ++ "\n" ++ s.content := by
  rw [sectionUnit, if_neg h]

theorem sectionUnit_empty (s : ParsedSection) (h : s.header = "") :
    sectionUnit s = s.content := by
  rw [sectionUnit, if_pos h]

theorem autoUpdate_header_ne {h : String}
    (hc : classifySection h = SectionMergeStrategy.autoUpdate) : h ≠ "" := by
  intro he
  rw [he] at hc
  exact absurd hc (by decide)

theorem static_header_ne {h : String}
    (hc : classifySection h = SectionMergeStrategy.static) : h ≠ "" := by
  intro he
  rw [he] at hc
  exact absurd hc (by decide)

theorem mergeAutoUpdateSection_self (s : ParsedSection) (changes : List MergeChange) :
    mergeAutoUpdateSection s s changes = (s.header ++ "\n" ++ s.content, changes) := by
  simp [mergeAutoUpdateSection, strEqB_self]

theorem mergeWalk_self (fresh : List ParsedSection) (suffix : List ParsedSection) :
    (∀ s ∈ suffix, generateFreshSection s.header fresh = some s) →
    ∀ (changes : List MergeChange) (consumed : List String),
      mergeWalk fresh suffix changes consumed =
        (suffix.map sectionUnit, changes,
          consumed ++ suffix.map (fun s => normalizeHeader s.header)) := by
  induction suffix with
  | nil =>
    intro _ changes consumed
    rw [mergeWalk]
    simp
  | cons s rest ih =>
    intro hall changes consumed
    have hs := hall s (List.mem_cons_self s rest)
    have hrest : ∀ x ∈ rest, generateFreshSection x.header fresh = some x :=
      fun x hx => hall x (List.mem_cons.mpr (Or.inr hx))
    cases hc : classifySection s.header with
    | autoUpdate =>
      have hne : s.header ≠ "" := autoUpdate_header_ne hc
      rw [mergeWalk, hc]
      dsimp only
      rw [hs]
      dsimp only
      rw [mergeAutoUpdateSection_self]
      dsimp only
      rw [ih hrest changes (consumed ++ [normalizeHeader s.header])]
      dsimp only
      rw [List.map_cons, sectionUnit_pos s hne]
      simp [List.append_assoc]
    | static =>
      have hne : s.header ≠ "" := static_header_ne hc
      rw [mergeWalk, hc]
      dsimp only
      rw [hs]
      dsimp only
      rw [ih hrest changes (consumed ++ [normalizeHeader s.header])]
      dsimp only
      rw [List.map_cons, sectionUnit_pos s hne]
      simp [List.append_assoc]
    | preserve =>
      rw [mergeWalk, hc]
      dsimp only
      rw [hs]
      dsimp only
      by_cases he : s.header = ""
      · rw [if_pos he]
        dsimp only
        rw [ih hrest changes (consumed ++ [normalizeHeader s.header])]
        dsimp only
        rw [List.map_cons, sectionUnit_empty s he]
        simp [List.append_assoc]
      · rw [if_neg he]
        dsimp only
        rw [ih hrest changes (consumed ++ [normalizeHeader s.header])]
        dsimp only
        rw [List.map_cons, sectionUnit_pos s he]
        simp [List.append_assoc]

theorem appendNewSections_consumed (consumed : List String)
    (rest : List ParsedSection) :
    (∀ s ∈ rest, s.header = "" ∨ consumed.contains (normalizeHeader s.header) = true) →
    ∀ (changes : List MergeChange),
      appendNewSections consumed changes rest = ([], changes) := by
  induction rest with
  | nil => intro _ changes; rfl
  | cons s rest' ih =>
    intro hall changes
    have hrest : ∀ x ∈ rest', x.header = "" ∨
        consumed.contains (normalizeHeader x.header) = true :=
      fun x hx => hall x (List.mem_cons.mpr (Or.inr hx))
    rw [appendNewSections]
    rcases hall s (List.mem_cons_self s rest') with he | hcont
    · rw [if_pos he]
      exact ih hrest changes
    · by_cases he : s.header = ""
      · rw [if_pos he]
        exact ih hrest changes
      · rw [if_neg he, if_pos hcont]
        exact ih hrest changes

theorem mergeCore_self (analysis : ProjectAnalysis)
    (hall : ∀ s ∈ parseProjectMdSections (formatProjectMd analysis),
      generateFreshSection s.header
        (parseProjectMdSections (formatProjectMd analysis)) = some s) :
    mergeCore (parseProjectMdSections (formatProjectMd analysis)) analysis =
      ((parseProjectMdSections (formatProjectMd analysis)).map sectionUnit, []) := by
  rw [mergeCore]
  rw [mergeWalk_self _ _ hall [] []]
  dsimp only
  rw [appendNewSections_consumed _ _ ?_ []]
  · simp
  · intro s hsmem
    right
    have hmem : normalizeHeader s.header ∈
        ([] : List String) ++ (parseProjectMdSections (formatProjectMd analysis)).map
          (fun t => normalizeHeader t.header) := by
      rw [List.nil_append]
      exact List.mem_map_of_mem _ hsmem
    simpa using hmem

/-- C3: corrected. When every section of the freshly rendered document finds
itself as its own fresh match (no header-injection collisions) and the
rendered document has no adjacent level-2 headers, self-merge yields zero
change records, a merged body equal to the rendered document (or the rendered
document with one extra trailing newline), and an output that is exactly the
change-log banner inserted into that body. Without the no-collision
restriction the claim fails (see the counterexample). -/
theorem c3_amended_selfMerge (analysis : ProjectAnalysis) (today : String)
    (h1 : (parseProjectMdSections (formatProjectMd analysis)).all
      (fun s => (generateFreshSection s.header
        (parseProjectMdSections (formatProjectMd analysis))).elim false
        (fun f => sectionBeq f s)) = true)
    (hadj : noAdjacentHeaders (jsLines (formatProjectMd analysis)) = true) :
    mergeChanges (parseProjectMdSections (formatProjectMd analysis)) analysis = [] ∧
    (mergeBody (parseProjectMdSections (formatProjectMd analysis)) analysis =
        formatProjectMd analysis ∨
      mergeBody (parseProjectMdSections (formatProjectMd analysis)) analysis =
        formatProjectMd analysis ++ "\n") ∧
    mergeProjectMd (parseProjectMdSections (formatProjectMd analysis)) analysis today =
      insertChangeLog (mergeBody (parseProjectMdSections (formatProjectMd analysis)) analysis)
        (formatChangeLog [] today) := by
  have hall : ∀ s ∈ parseProjectMdSections (formatProjectMd analysis),
      generateFreshSection s.header
        (parseProjectMdSections (formatProjectMd analysis)) = some s := by
    intro s hsmem
    have hx := List.all_eq_true.mp h1 s hsmem
    cases hg : generateFreshSection s.header
        (parseProjectMdSections (formatProjectMd analysis)) with
    | none =>
      rw [hg] at hx
      simp at hx
    | some f =>
      rw [hg] at hx
      dsimp only [Option.elim] at hx
      rw [(sectionBeq_iff f s).mp hx]
  have hcore := mergeCore_self analysis hall
  have hchanges : mergeChanges (parseProjectMdSections (formatProjectMd analysis))
      analysis = [] := by
    rw [mergeChanges, hcore]
  have hbodyEq : mergeBody (parseProjectMdSections (formatProjectMd analysis)) analysis =
      reassembleSections (parseProjectMdSections (formatProjectMd analysis)) := by
    rw [mergeBody, hcore]
    rfl
  have hrt := parseLoop_units_preamble (jsLines (formatProjectMd analysis)) [] hadj
  rw [List.nil_append, joinNl_jsLines] at hrt
  refine ⟨hchanges, ?_, ?_⟩
  · rw [hbodyEq]
    exact hrt
  · rw [mergeProjectMd, hchanges]

/-- Witness for C3 at a concrete analysis record whose commands contain no
header-like lines. -/
theorem c3_amended_selfMerge_witness :
    ((parseProjectMdSections (formatProjectMd analysisA)).all
      (fun s => (generateFreshSection s.header
        (parseProjectMdSections (formatProjectMd analysisA))).elim false
        (fun f => sectionBeq f s)) = true) ∧
    noAdjacentHeaders (jsLines (formatProjectMd analysisA)) = true ∧
    (mergeChanges (parseProjectMdSections (formatProjectMd analysisA)) analysisA = [] ∧
    (mergeBody (parseProjectMdSections (formatProjectMd analysisA)) analysisA =
        formatProjectMd analysisA ∨
      mergeBody (parseProjectMdSections (formatProjectMd analysisA)) analysisA =
        formatProjectMd analysisA ++ "\n") ∧
    mergeProjectMd (parseProjectMdSections (formatProjectMd analysisA)) analysisA c3Date =
      insertChangeLog (mergeBody (parseProjectMdSections (formatProjectMd analysisA)) analysisA)
        (formatChangeLog [] c3Date)) :=
  ⟨by decide, by decide, c3_amended_selfMerge analysisA c3Date (by decide) (by decide)⟩

/-- Counterexample for C3 as stated: when the analysis build command is the
literal line `## Toolchain`, the rendered document re-parses with a duplicate
normalized header and the self-merge emits a spurious change record. -/
theorem c3_counterexample :
    (mergeChanges (parseProjectMdSections (formatProjectMd analysisInj))
      analysisInj).isEmpty = false := by
  decide

/-! ## C4: preserve sections survive the merge -/

/-- Date string used by the C4 theorems. -/
def c4Date : String := "2026-10-11"

/-- A custom section whose body holds no level-1 title line. -/
def c4Section : ParsedSection := ⟨"## My Custom Rules", 2, "remember this"⟩

/-- A custom section whose body holds a level-1 title line, which attracts
the change-log insertion. -/
def c4BadSection : ParsedSection :=
  ⟨"## My Custom Rules", 2, "# note\nremember this custom thing"⟩

theorem listInfix_of_isInfix (pat : List Char) :
    ∀ (l : List Char), pat <:+: l → listInfix pat l = true := by
  intro l
  induction l with
  | nil =>
    intro h
    rw [List.infix_nil.mp h]
    rfl
  | cons c rest ih =>
    intro h
    rw [listInfix, Bool.or_eq_true]
    rcases List.infix_cons_iff.mp h with hp | hi
    · left
      exact List.isPrefixOf_iff_prefix.mpr hp
    · right
      exact ih hi

theorem containsSub_of_isInfix {big small : String}
    (h : small.data <:+: big.data) : containsSub big small = true :=
  listInfix_of_isInfix small.data big.data h

theorem isInfix_joinNl_right (U B : List String) (hU : U ≠ []) :
    (joinNl U).data <:+: (joinNl (U ++ B)).data := by
  cases B with
  | nil =>
    rw [List.append_nil]
  | cons b bs =>
    rw [joinNl_append U (b :: bs) hU (by simp), String.data_append,
      String.data_append]
    exact ⟨[], "\n".data ++ (joinNl (b :: bs)).data, by simp⟩

theorem isInfix_joinNl_middle (A U B : List String) (hU : U ≠ []) :
    (joinNl U).data <:+: (joinNl (A ++ U ++ B)).data := by
  cases A with
  | nil =>
    rw [List.nil_append]
    exact isInfix_joinNl_right U B hU
  | cons a as =>
    have hUB : U ++ B ≠ [] := fun hh => hU (List.append_eq_nil.mp hh).1
    rw [List.append_assoc, joinNl_append (a :: as) (U ++ B) (by simp) hUB,
      String.data_append, String.data_append]
    obtain ⟨s, t, hst⟩ := isInfix_joinNl_right U B hU
    exact ⟨(joinNl (a :: as)).data ++ "\n".data ++ s, t, by rw [← hst]; simp⟩

theorem isInfix_extend_left (x : String) {p b : String} (h : p.data <:+: b.data) :
    p.data <:+: (x ++ b).data := by
  obtain ⟨s, t, hst⟩ := h
  refine ⟨x.data ++ s, t, ?_⟩
  rw [String.data_append, ← hst]
  simp

theorem first_split {α : Type _} (p : α → Bool) (l : List α) :
    l.all (fun x => !p x) = true ∨
      ∃ A1 a A2, l = A1 ++ a :: A2 ∧ A1.all (fun x => !p x) = true ∧ p a = true := by
  induction l with
  | nil =>
    left
    rfl
  | cons x xs ih =>
    cases hx : p x
    · rcases ih with hall | ⟨A1, a, A2, hsplit, hA1, ha⟩
      · left
        rw [List.all_cons, hx]
        simp [hall]
      · right
        exact ⟨x :: A1, a, A2, by rw [hsplit, List.cons_append],
          by rw [List.all_cons, hx]; simp [hA1], ha⟩
    · right
      exact ⟨[], x, xs, rfl, rfl, hx⟩

theorem jsLines_joinNl_middle (pre post : List String) (su : String) :
    ∃ A B, jsLines (joinNl (pre ++ su :: post)) = A ++ jsLines su ++ B := by
  cases pre with
  | nil =>
    cases post with
    | nil =>
      refine ⟨[], [], ?_⟩
      rw [List.nil_append, joinNl_single]
      simp
    | cons q qs =>
      refine ⟨[], jsLines (joinNl (q :: qs)), ?_⟩
      rw [List.nil_append, joinNl_cons_cons, jsLines_append_nl, List.nil_append]
  | cons p ps =>
    have h1 : joinNl ((p :: ps) ++ su :: post) =
        joinNl (p :: ps) ++ "\n" ++ joinNl (su :: post) :=
      joinNl_append (p :: ps) (su :: post) (by simp) (by simp)
    cases post with
    | nil =>
      refine ⟨jsLines (joinNl (p :: ps)), [], ?_⟩
      rw [h1, jsLines_append_nl, joinNl_single, List.append_nil]
    | cons q qs =>
      refine ⟨jsLines (joinNl (p :: ps)), jsLines (joinNl (q :: qs)), ?_⟩
      rw [h1, jsLines_append_nl, joinNl_cons_cons, jsLines_append_nl,
        List.append_assoc]

theorem insertChangeLog_contains (body log : String) (A B U : List String)
    (hlines : jsLines body = A ++ U ++ B)
    (hU : U ≠ [])
    (hUp : U.all (fun l => !strStartsWith l hashSpace) = true) :
    containsSub (insertChangeLog body log) (joinNl U) = true := by
  have hbody : joinNl (A ++ U ++ B) = body := by
    rw [← hlines, joinNl_jsLines]
  rw [insertChangeLog]
  rw [hlines]
  rcases first_split (fun l => strStartsWith l hashSpace) A with hA |
      ⟨A1, a, A2, hsplA, hA1, ha⟩
  · rcases first_split (fun l => strStartsWith l hashSpace) B with hB |
        ⟨B1, b, B2, hsplB, hB1, hb⟩
    · have hall : (A ++ U ++ B).all (fun l => !strStartsWith l hashSpace) = true := by
        simp only [List.all_append, Bool.and_eq_true]
        exact ⟨⟨hA, hUp⟩, hB⟩
      rw [findIdx?_none_of_all (A ++ U ++ B) 0 hall]
      apply containsSub_of_isInfix
      rw [← hbody]
      exact isInfix_extend_left (log ++ "\n") (isInfix_joinNl_middle A U B hU)
    · have hpre : ((A ++ U) ++ B1).all (fun l => !strStartsWith l hashSpace) = true := by
        simp only [List.all_append, Bool.and_eq_true]
        exact ⟨⟨hA, hUp⟩, hB1⟩
      have hsplit : A ++ U ++ B = ((A ++ U) ++ B1) ++ b :: B2 := by
        rw [hsplB]
        simp [List.append_assoc]
      rw [hsplit, findIdx?_append_first ((A ++ U) ++ B1) b B2 0 hpre hb]
      dsimp only
      rw [Nat.zero_add, take_append_cons_self, drop_append_cons_self]
      apply containsSub_of_isInfix
      have hre : (((A ++ U) ++ B1) ++ [b]) ++ ["", log] ++ B2 =
          A ++ U ++ (B1 ++ [b] ++ ["", log] ++ B2) := by
        simp [List.append_assoc]
      rw [hre]
      exact isInfix_joinNl_middle A U _ hU
  · have hsplit : A ++ U ++ B = A1 ++ a :: ((A2 ++ U) ++ B) := by
      rw [hsplA]
      simp [List.append_assoc]
    rw [hsplit, findIdx?_append_first A1 a ((A2 ++ U) ++ B) 0 hA1 ha]
    dsimp only
    rw [Nat.zero_add, take_append_cons_self, drop_append_cons_self]
    apply containsSub_of_isInfix
    have hre : (A1 ++ [a]) ++ ["", log] ++ ((A2 ++ U) ++ B) =
        (A1 ++ [a] ++ ["", log] ++ A2) ++ U ++ B := by
      simp [List.append_assoc]
    rw [hre]
    exact isInfix_joinNl_middle _ U B hU

theorem mergeWalk_parts_mem (fresh : List ParsedSection) (s : ParsedSection)
    (hcls : classifySection s.header = SectionMergeStrategy.preserve) :
    ∀ (existing : List ParsedSection), s ∈ existing →
    ∀ (changes : List MergeChange) (consumed : List String),
      ∃ pre post,
        (mergeWalk fresh existing changes consumed).1 = pre ++ sectionUnit s :: post := by
  intro existing
  induction existing with
  | nil =>
    intro hmem
    cases hmem
  | cons e rest ih =>
    intro hmem changes consumed
    rcases List.mem_cons.mp hmem with heq | hmem'
    · subst heq
      rw [mergeWalk, hcls]
      dsimp only
      cases hg : generateFreshSection s.header fresh with
      | some f =>
        by_cases he : s.header = ""
        · rw [if_pos he]
          dsimp only
          refine ⟨[], (mergeWalk fresh rest changes
            (consumed ++ [normalizeHeader f.header])).1, ?_⟩
          rw [List.nil_append, sectionUnit_empty s he]
        · rw [if_neg he]
          dsimp only
          refine ⟨[], (mergeWalk fresh rest changes
            (consumed ++ [normalizeHeader f.header])).1, ?_⟩
          rw [List.nil_append, sectionUnit_pos s he]
      | none =>
        by_cases he : s.header = ""
        · rw [if_pos he]
          dsimp only
          refine ⟨[], (mergeWalk fresh rest changes consumed).1, ?_⟩
          rw [List.nil_append, sectionUnit_empty s he]
        · rw [if_neg he]
          dsimp only
          refine ⟨[], (mergeWalk fresh rest changes consumed).1, ?_⟩
          rw [List.nil_append, sectionUnit_pos s he]
    · cases hc : classifySection e.header with
      | autoUpdate =>
        rw [mergeWalk, hc]
        dsimp only
        cases hg : generateFreshSection e.header fresh with
        | some f =>
          dsimp only
          obtain ⟨pre, post, hw⟩ := ih hmem' (mergeAutoUpdateSection e f changes).2
            (consumed ++ [normalizeHeader f.header])
          refine ⟨(mergeAutoUpdateSection e f changes).1 :: pre, post, ?_⟩
          rw [List.cons_append, hw]
        | none =>
          dsimp only
          obtain ⟨pre, post, hw⟩ := ih hmem' changes consumed
          refine ⟨(e.header ++ "\n" ++ e.content) :: pre, post, ?_⟩
          rw [List.cons_append, hw]
      | static =>
        rw [mergeWalk, hc]
        dsimp only
        cases hg : generateFreshSection e.header fresh with
        | some f =>
          dsimp only
          obtain ⟨pre, post, hw⟩ := ih hmem' changes
            (consumed ++ [normalizeHeader f.header])
          refine ⟨(f.header ++ "\n" ++ f.content) :: pre, post, ?_⟩
          rw [List.cons_append, hw]
        | none =>
          dsimp only
          obtain ⟨pre, post, hw⟩ := ih hmem' changes consumed
          refine ⟨(e.header ++ "\n" ++ e.content) :: pre, post, ?_⟩
          rw [List.cons_append, hw]
      | preserve =>
        rw [mergeWalk, hc]
        dsimp only
        cases hg : generateFreshSection e.header fresh with
        | some f =>
          dsimp only
          by_cases he : e.header = ""
          · rw [if_pos he]
            dsimp only
            obtain ⟨pre, post, hw⟩ := ih hmem' changes
              (consumed ++ [normalizeHeader f.header])
            refine ⟨e.content :: pre, post, ?_⟩
            rw [List.cons_append, hw]
          · rw [if_neg he]
            dsimp only
            obtain ⟨pre, post, hw⟩ := ih hmem' changes
              (consumed ++ [normalizeHeader f.header])
            refine ⟨(e.header ++ "\n" ++ e.content) :: pre, post, ?_⟩
            rw [List.cons_append, hw]
        | none =>
          dsimp only
          by_cases he : e.header = ""
          · rw [if_pos he]
            dsimp only
            obtain ⟨pre, post, hw⟩ := ih hmem' changes consumed
            refine ⟨e.content :: pre, post, ?_⟩
            rw [List.cons_append, hw]
          · rw [if_neg he]
            dsimp only
            obtain ⟨pre, post, hw⟩ := ih hmem' changes consumed
            refine ⟨(e.header ++ "\n" ++ e.content) :: pre, post, ?_⟩
            rw [List.cons_append, hw]

/-- C4: corrected. An existing section classified `preserve` survives a merge
verbatim whenever none of its lines begins with `"# "`: the merged output
contains the section's reassembled unit (header, newline, content; content
alone for the empty-header preamble) as a substring. Without that
restriction the change-log insertion can split the section (see the
counterexample). -/
theorem c4_amended_preserve (existing : List ParsedSection)
    (analysis : ProjectAnalysis) (today : String) (s : ParsedSection)
    (hmem : s ∈ existing)
    (hcls : classifySection s.header = SectionMergeStrategy.preserve)
    (hnoTitle : (jsLines (sectionUnit s)).all
      (fun l => !strStartsWith l hashSpace) = true) :
    containsSub (mergeProjectMd existing analysis today) (sectionUnit s) = true := by
  obtain ⟨pre, post, hw⟩ := mergeWalk_parts_mem
    (parseProjectMdSections (formatProjectMd analysis)) s hcls existing hmem [] []
  have hparts : (mergeCore existing analysis).1 =
      pre ++ sectionUnit s :: (post ++
        (appendNewSections
          (mergeWalk (parseProjectMdSections (formatProjectMd analysis))
            existing [] []).2.2
          (mergeWalk (parseProjectMdSections (formatProjectMd analysis))
            existing [] []).2.1
          (parseProjectMdSections (formatProjectMd analysis))).1) := by
    rw [mergeCore]
    dsimp only
    rw [hw]
    simp [List.append_assoc]
  obtain ⟨A, B, hAB⟩ := jsLines_joinNl_middle pre
    (post ++ (appendNewSections
      (mergeWalk (parseProjectMdSections (formatProjectMd analysis))
        existing [] []).2.2
      (mergeWalk (parseProjectMdSections (formatProjectMd analysis))
        existing [] []).2.1
      (parseProjectMdSections (formatProjectMd analysis))).1)
    (sectionUnit s)
  have hlines2 : jsLines (mergeBody existing analysis) =
      A ++ jsLines (sectionUnit s) ++ B := by
    rw [mergeBody, hparts]
    exact hAB
  have hc := insertChangeLog_contains (mergeBody existing analysis)
    (formatChangeLog (mergeChanges existing analysis) today) A B
    (jsLines (sectionUnit s)) hlines2 (jsLines_ne_nil _) hnoTitle
  rw [joinNl_jsLines] at hc
  rw [mergeProjectMd]
  exact hc

/-- Witness for C4 at a concrete preserve section without title lines. -/
theorem c4_amended_preserve_witness :
    c4Section ∈ [c4Section] ∧
    classifySection c4Section.header = SectionMergeStrategy.preserve ∧
    (jsLines (sectionUnit c4Section)).all
      (fun l => !strStartsWith l hashSpace) = true ∧
    containsSub (mergeProjectMd [c4Section] analysisA c4Date)
      (sectionUnit c4Section) = true :=
  ⟨by decide, by decide, by decide,
    c4_amended_preserve [c4Section] analysisA c4Date c4Section
      (by decide) (by decide) (by decide)⟩

/-- Counterexample for C4 as stated: a preserve section whose content holds a
line starting with `"# "` is split by the change-log insertion, so neither
its full unit nor its content appears verbatim in the merged output. -/
theorem c4_counterexample :
    classifySection c4BadSection.header = SectionMergeStrategy.preserve ∧
    containsSub (mergeProjectMd [c4BadSection] analysisA c4Date)
      (c4BadSection.header ++ "\n" ++ c4BadSection.content) = false ∧
    containsSub (mergeProjectMd [c4BadSection] analysisA c4Date)
      c4BadSection.content = false := by
  decide

/-! ## C5: overview description preservation -/

theorem dropWhile_idem {α : Type _} (p : α → Bool) (l : List α) :
    (l.dropWhile p).dropWhile p = l.dropWhile p := by
  induction l with
  | nil => rfl
  | cons a l ih =>
    cases ha : p a
    · rw [List.dropWhile_cons_of_neg (by rw [ha]; exact Bool.false_ne_true),
        List.dropWhile_cons_of_neg (by rw [ha]; exact Bool.false_ne_true)]
    · rw [List.dropWhile_cons_of_pos ha]
      exact ih

theorem dropWhile_head_false {α : Type _} {p : α → Bool} {a : α} {l : List α}
    (h : (a :: l).dropWhile p = a :: l) : p a = false := by
  cases ha : p a
  · rfl
  · rw [List.dropWhile_cons_of_pos ha] at h
    have hle := dropWhile_length_le p l
    rw [h] at hle
    simp at hle

theorem dropWhile_eq_self_of_pre {α : Type _} {p : α → Bool} :
    ∀ {l' l : List α}, l' <+: l → l.dropWhile p = l → l'.dropWhile p = l' := by
  intro l' l hpre hl
  cases l' with
  | nil => rfl
  | cons a t =>
    obtain ⟨r, hr⟩ := hpre
    have he : l = a :: (t ++ r) := by rw [← hr]; rfl
    rw [he] at hl
    have ha := dropWhile_head_false hl
    rw [List.dropWhile_cons_of_neg (by rw [ha]; exact Bool.false_ne_true)]

theorem jsTrimEndL_pre (l : List Char) : jsTrimEndL l <+: l := by
  rw [jsTrimEndL]
  have h := List.dropWhile_suffix (l := l.reverse) isJsWs
  have h2 := List.reverse_prefix.mpr h
  rw [List.reverse_reverse] at h2
  exact h2

theorem jsTrimEndL_idem (l : List Char) : jsTrimEndL (jsTrimEndL l) = jsTrimEndL l := by
  rw [jsTrimEndL, jsTrimEndL, List.reverse_reverse, dropWhile_idem]

theorem jsTrim_idem (s : String) : jsTrim (jsTrim s) = jsTrim s := by
  have hS : jsTrimStartL (jsTrimEndL (jsTrimStartL s.data)) =
      jsTrimEndL (jsTrimStartL s.data) := by
    rw [jsTrimStartL]
    exact dropWhile_eq_self_of_pre (jsTrimEndL_pre _) (dropWhile_idem _ _)
  show String.mk (jsTrimEndL (jsTrimStartL (jsTrimEndL (jsTrimStartL s.data)))) = _
  rw [hS, jsTrimEndL_idem]
  rfl

theorem extractFieldValue_trim :
    ∀ (lines : List String) (m d : String),
      extractFieldValue lines m = some d → jsTrim d = d := by
  intro lines
  induction lines with
  | nil =>
    intro m d h
    exact absurd h (by rw [extractFieldValue]; exact Option.noConfusion)
  | cons l rest ih =>
    intro m d h
    rw [extractFieldValue] at h
    by_cases hm : strStartsWith (jsTrimStart l) m = true
    · rw [if_pos hm] at h
      have hd : d = jsTrim (strDrop (jsTrimStart l) m.length) := by
        exact (Option.some.injEq _ _ ▸ h).symm
      rw [hd, jsTrim_idem]
    · rw [if_neg hm] at h
      exact ih m d h

theorem extractFieldValue_append_skip (m : String) :
    ∀ (xs ys : List String),
      (∀ l ∈ xs, strStartsWith (jsTrimStart l) m = false) →
      extractFieldValue (xs ++ ys) m = extractFieldValue ys m := by
  intro xs
  induction xs with
  | nil => intro ys _; rw [List.nil_append]
  | cons x xs' ih =>
    intro ys hall
    rw [List.cons_append, extractFieldValue]
    have hx := hall x (List.mem_cons_self x xs')
    rw [if_neg (by rw [hx]; exact Bool.false_ne_true)]
    exact ih ys (fun l hl => hall l (List.mem_cons.mpr (Or.inr hl)))

theorem replaceFirstDesc_ne_nil {lines : List String} (h : lines ≠ [])
    (d : String) : replaceFirstDesc lines d ≠ [] := by
  cases lines with
  | nil => exact absurd rfl h
  | cons l rest =>
    rw [replaceFirstDesc]
    by_cases hm : strStartsWith (jsTrimStart l) descFieldMark = true
    · rw [if_pos hm]
      exact List.cons_ne_nil _ _
    · rw [if_neg hm]
      exact List.cons_ne_nil _ _

theorem strLength_data (s : String) : s.length = s.data.length := rfl

theorem mem_jsTrimStartL {c : Char} {l : List Char} (h : c ∈ jsTrimStartL l) :
    c ∈ l := by
  rw [jsTrimStartL] at h
  exact ((List.dropWhile_suffix isJsWs).sublist).subset h

theorem mem_jsTrimEndL {c : Char} {l : List Char} (h : c ∈ jsTrimEndL l) : c ∈ l := by
  rw [jsTrimEndL, List.mem_reverse] at h
  have h2 := ((List.dropWhile_suffix isJsWs).sublist).subset h
  rw [List.mem_reverse] at h2
  exact h2

theorem extractFieldValue_no_nl :
    ∀ (lines : List String) (m d : String),
      extractFieldValue lines m = some d →
      (∀ l ∈ lines, '\n' ∉ l.data) → '\n' ∉ d.data := by
  intro lines
  induction lines with
  | nil =>
    intro m d h _
    exact absurd h (by rw [extractFieldValue]; exact Option.noConfusion)
  | cons l rest ih =>
    intro m d h hall
    rw [extractFieldValue] at h
    by_cases hm : strStartsWith (jsTrimStart l) m = true
    · rw [if_pos hm] at h
      have hd : d = jsTrim (strDrop (jsTrimStart l) m.length) :=
        (Option.some.injEq _ _ ▸ h).symm
      intro hmem
      rw [hd] at hmem
      have h1 := mem_jsTrimStartL (mem_jsTrimEndL hmem)
      have h2 := List.drop_subset m.length _ h1
      have h3 := mem_jsTrimStartL h2
      exact hall l (List.mem_cons_self l rest) h3
    · rw [if_neg hm] at h
      exact ih m d h (fun x hx => hall x (List.mem_cons.mpr (Or.inr hx)))

theorem replaceFirstDesc_no_nl (d : String) (hd : '\n' ∉ d.data) :
    ∀ (lines : List String), (∀ l ∈ lines, '\n' ∉ l.data) →
      ∀ l ∈ replaceFirstDesc lines d, '\n' ∉ l.data := by
  intro lines
  induction lines with
  | nil =>
    intro _ l hl
    cases hl
  | cons x rest ih =>
    intro hall l hl
    rw [replaceFirstDesc] at hl
    by_cases hm : strStartsWith (jsTrimStart x) descFieldMark = true
    · rw [if_pos hm] at hl
      rcases List.mem_cons.mp hl with h1 | h1
      · subst h1
        intro hmem
        rw [String.data_append] at hmem
        rcases List.mem_append.mp hmem with h2 | h2
        · exact absurd h2 (by decide)
        · exact hd h2
      · exact hall l (List.mem_cons.mpr (Or.inr h1))
    · rw [if_neg hm] at hl
      rcases List.mem_cons.mp hl with h1 | h1
      · subst h1
        exact hall l (List.mem_cons_self l rest)
      · exact ih (fun y hy => hall y (List.mem_cons.mpr (Or.inr hy))) l h1

theorem replaceFirstDesc_extract (d : String) :
    ∀ (lines : List String),
      lines.any (fun l => strStartsWith (jsTrimStart l) descFieldMark) = true →
      extractFieldValue (replaceFirstDesc lines d) descFieldMark =
        some (jsTrim d) := by
  intro lines
  induction lines with
  | nil =>
    intro hany
    exact absurd hany (by decide)
  | cons l rest ih =>
    intro hany
    by_cases hm : strStartsWith (jsTrimStart l) descFieldMark = true
    · rw [replaceFirstDesc, if_pos hm, extractFieldValue]
      have hform : (descFieldMark ++ " " ++ d).data =
          '-' :: (" **Description:** ".data ++ d.data) := by
        rw [String.data_append, String.data_append]
        rfl
      have htrim : jsTrimStart (descFieldMark ++ " " ++ d) =
          descFieldMark ++ " " ++ d := by
        show String.mk (jsTrimStartL (descFieldMark ++ " " ++ d).data) = _
        rw [hform, jsTrimStartL, List.dropWhile_cons_of_neg (by decide), ← hform]
      rw [htrim]
      have hstart : strStartsWith (descFieldMark ++ " " ++ d) descFieldMark = true := by
        rw [strStartsWith]
        apply List.isPrefixOf_iff_prefix.mpr
        refine ⟨" ".data ++ d.data, ?_⟩
        rw [String.data_append, String.data_append]
        simp [List.append_assoc]
      rw [if_pos hstart]
      congr 1
    · rw [replaceFirstDesc, if_neg hm, extractFieldValue, if_neg hm]
      apply ih
      rw [List.any_cons] at hany
      cases hml : strStartsWith (jsTrimStart l) descFieldMark
      · rw [hml, Bool.false_or] at hany
        exact hany
      · exact absurd hml hm

theorem mergeProjectOverview_eq (existing fresh : ParsedSection)
    (changes : List MergeChange) (d : String)
    (hd : extractFieldValue (jsLines existing.content) descFieldMark = some d)
    (hne : d ≠ "")
    (htodo : strStartsWith (jsLower d) todoMark = false)
    (heq : strEqB (jsTrim (joinNl (removeField (jsLines existing.content) descFieldMark)))
      (jsTrim (joinNl (removeField (jsLines fresh.content) descFieldMark))) = true) :
    mergeProjectOverview existing fresh changes =
      (fresh.header ++ "\n" ++ joinNl (replaceFirstDesc (jsLines fresh.content) d),
        changes) := by
  rw [mergeProjectOverview, hd]
  simp only [decide_eq_false hne, htodo, heq, Bool.false_or, Bool.not_false,
    Bool.not_true, Bool.false_eq_true, if_false, if_true]

/-- Existing overview section with a custom description, for the C5 witness. -/
def c5Existing : ParsedSection :=
  ⟨"## Project Overview", 2,
    "- **Name:** my-app\n- **Description:** My custom description\n- **Type:** web-app"⟩

/-- Fresh overview section with the placeholder description, for the C5
witness. -/
def c5Fresh : ParsedSection :=
  ⟨"## Project Overview", 2,
    "- **Name:** my-app\n- **Description:** [TODO: Add project description]\n- **Type:** web-app"⟩

/-- The custom description of `c5Existing`. -/
def c5Desc : String := "My custom description"

/-- C5: confirmed. When the existing overview section carries a
non-placeholder description value `d`, the fresh section also has a
description line, neither header contains a description line, and the two
sections agree once their description lines are removed, the merged section
still yields exactly `d` as its description field and no change record is
emitted. -/
theorem c5_overview_description (existing fresh : ParsedSection)
    (changes : List MergeChange) (d : String)
    (hd : extractFieldValue (jsLines existing.content) descFieldMark = some d)
    (hne : d ≠ "")
    (htodo : strStartsWith (jsLower d) todoMark = false)
    (hhdr : strStartsWith (jsLower (jsTrim existing.header)) overviewMark = true)
    (hheadE : ∀ l ∈ jsLines existing.header,
      strStartsWith (jsTrimStart l) descFieldMark = false)
    (hheadF : ∀ l ∈ jsLines fresh.header,
      strStartsWith (jsTrimStart l) descFieldMark = false)
    (hfreshDesc : (jsLines fresh.content).any
      (fun l => strStartsWith (jsTrimStart l) descFieldMark) = true)
    (heq : strEqB (jsTrim (joinNl (removeField (jsLines existing.content) descFieldMark)))
      (jsTrim (joinNl (removeField (jsLines fresh.content) descFieldMark))) = true) :
    (mergeAutoUpdateSection existing fresh changes).2 = changes ∧
    extractFieldValue (jsLines (mergeAutoUpdateSection existing fresh changes).1)
      descFieldMark = some d := by
  rw [mergeAutoUpdateSection]
  by_cases htr : strEqB (jsTrim (existing.header ++ "\n" ++ existing.content))
      (jsTrim (fresh.header ++ "\n" ++ fresh.content)) = true
  · rw [if_pos htr]
    refine ⟨rfl, ?_⟩
    rw [jsLines_append_nl, extractFieldValue_append_skip descFieldMark _ _ hheadE, hd]
  · rw [if_neg htr, if_pos hhdr,
      mergeProjectOverview_eq existing fresh changes d hd hne htodo heq]
    refine ⟨rfl, ?_⟩
    have hdnl : '\n' ∉ d.data :=
      extractFieldValue_no_nl (jsLines existing.content) descFieldMark d hd
        (jsLines_no_nl existing.content)
    have hnl : ∀ l ∈ replaceFirstDesc (jsLines fresh.content) d, '\n' ∉ l.data :=
      replaceFirstDesc_no_nl d hdnl (jsLines fresh.content)
        (jsLines_no_nl fresh.content)
    rw [jsLines_append_nl, extractFieldValue_append_skip descFieldMark _ _ hheadF,
      jsLines_joinNl_of_no_nl _ (replaceFirstDesc_ne_nil (jsLines_ne_nil _) d) hnl,
      replaceFirstDesc_extract d _ hfreshDesc,
      extractFieldValue_trim (jsLines existing.content) descFieldMark d hd]

/-- Witness for C5 at concrete overview sections. -/
theorem c5_overview_description_witness :
    extractFieldValue (jsLines c5Existing.content) descFieldMark = some c5Desc ∧
    c5Desc ≠ "" ∧
    strStartsWith (jsLower c5Desc) todoMark = false ∧
    strStartsWith (jsLower (jsTrim c5Existing.header)) overviewMark = true ∧
    (∀ l ∈ jsLines c5Existing.header,
      strStartsWith (jsTrimStart l) descFieldMark = false) ∧
    (∀ l ∈ jsLines c5Fresh.header,
      strStartsWith (jsTrimStart l) descFieldMark = false) ∧
    (jsLines c5Fresh.content).any
      (fun l => strStartsWith (jsTrimStart l) descFieldMark) = true ∧
    strEqB (jsTrim (joinNl (removeField (jsLines c5Existing.content) descFieldMark)))
      (jsTrim (joinNl (removeField (jsLines c5Fresh.content) descFieldMark))) = true ∧
    ((mergeAutoUpdateSection c5Existing c5Fresh []).2 = [] ∧
     extractFieldValue (jsLines (mergeAutoUpdateSection c5Existing c5Fresh []).1)
       descFieldMark = some c5Desc) :=
  ⟨by decide, by decide, by decide, by decide, by decide, by decide, by decide,
    by decide,
    c5_overview_description c5Existing c5Fresh [] c5Desc (by decide) (by decide)
      (by decide) (by decide) (by decide) (by decide) (by decide) (by decide)⟩
